import Mathlib

/-!
# Tic-tac-toe room server (`src/backend/server.js`)

A shallow embedding of the socket handlers of `server.js` and of `checkWinner`.

Modelling conventions.

* A board cell is `Option Mark`: `none` is JavaScript `null`.  Reading an array
  outside its bounds gives `undefined`, which is the outer `none` of `Board.read`.
* `room.gameOver` is only ever absent (`undefined`) or `true`; the field is a
  `Bool` whose `false` stands for the absent field.
* `rooms` (server.js:16) is the plain object `{}`.  Its own properties are kept
  as an association list in `Object.keys` order.  A property read `rooms[k]`
  that finds no own property falls back to `Object.prototype`, so it can yield
  an inherited, truthy value that is not a room (`Slot.inherited`).
* A handler invocation yields an `Outcome`: the registry when the handler
  stopped, the broadcasts it sent (`io.to(roomId).emit`), the acknowledgment it
  passed to `callback`, and whether it stopped by throwing a `TypeError`.
* Room and connection identifiers are strings, the `index` of a move is an
  integer, and the acknowledgment callback is supplied by the client.
  `socket.join` only affects the transport's delivery groups and is not part of
  the registry state.
-/

namespace Server

/-! ## Data model -/

/-- The two marks, the strings `"X"` and `"O"`. -/
inductive Mark where
  | X
  | O
deriving DecidableEq, Repr

/-- One board cell: `none` is `null`. -/
abbrev Cell := Option Mark

/-- The `board` array. -/
abbrev Board := List Cell

/-- The value of `board[index]` for an integer index: `none` is `undefined`
(index outside the array), `some none` is `null`. -/
def Board.read (b : Board) : Int → Option Cell
  | Int.ofNat n => b[n]?
  | Int.negSucc _ => none

/-- The assignment `board[index] = v` at a position inside the array (the only
place the handlers write to, since they first check that `board[index]` is `null`). -/
def Board.write (b : Board) (v : Cell) : Int → Board
  | Int.ofNat n => b.set n v
  | Int.negSucc _ => b

/-- The room object built at server.js:52-56 and mutated by the handlers. -/
structure Room where
  players : List String
  board : Board
  turn : Mark
  gameOver : Bool
deriving DecidableEq, Repr

/-- The own properties of `rooms`, in `Object.keys` order. -/
abbrev Rooms := List (String × Room)

/-- The property names every plain object inherits from `Object.prototype`. -/
def objectPrototypeKeys : List String :=
  ["constructor", "__defineGetter__", "__defineSetter__", "hasOwnProperty",
   "__lookupGetter__", "__lookupSetter__", "isPrototypeOf", "propertyIsEnumerable",
   "toString", "valueOf", "__proto__", "toLocaleString"]

/-- The result of the property read `rooms[roomId]`. -/
inductive Slot where
  | undefined
  | inherited
  | room (r : Room)
deriving DecidableEq, Repr

/-- The own property `k` of the registry, if there is one. -/
def Rooms.own : Rooms → String → Option Room
  | [], _ => none
  | (k', r) :: rest, k => if k' = k then some r else Rooms.own rest k

/-- The property read `rooms[k]`, with the fallback to `Object.prototype`. -/
def Rooms.get (rs : Rooms) (k : String) : Slot :=
  match rs.own k with
  | some r => Slot.room r
  | none => if k ∈ objectPrototypeKeys then Slot.inherited else Slot.undefined

/-- Truthiness of `rooms[k]`: objects and functions are truthy, `undefined` is not. -/
def Slot.truthy : Slot → Bool
  | Slot.undefined => false
  | _ => true

/-- Value of a decimal digit character. -/
def digitValue (c : Char) : Option Nat :=
  if 48 ≤ c.toNat ∧ c.toNat ≤ 57 then some (c.toNat - 48) else none

/-- Value of a string of decimal digits, most significant first. -/
def digitsValue : List Char → Nat → Option Nat
  | [], acc => some acc
  | c :: cs, acc =>
    match digitValue c with
    | some d => digitsValue cs (acc * 10 + d)
    | none => none

/-- The array index a property name denotes, if it is a canonical numeric
string below `2^32 - 1`.  Such keys come first in `Object.keys`, ascending. -/
def arrayIndex (k : String) : Option Nat :=
  match k.data with
  | [] => none
  | c :: cs =>
    if c = '0' ∧ cs ≠ [] then none
    else
      match digitsValue (c :: cs) 0 with
      | some n => if n < 4294967295 then some n else none
      | none => none

/-- Places a new array-index key `k` (of value `n`) among the own properties. -/
def Rooms.insertIndexed (n : Nat) (k : String) (r : Room) : Rooms → Rooms
  | [] => [(k, r)]
  | (k', r') :: rest =>
    match arrayIndex k' with
    | some m =>
      if m < n then (k', r') :: Rooms.insertIndexed n k r rest
      else (k, r) :: (k', r') :: rest
    | none => (k, r) :: (k', r') :: rest

/-- Replaces the value of the own property `k`. -/
def Rooms.replace (k : String) (r : Room) : Rooms → Rooms
  | [] => []
  | (k', r') :: rest =>
    if k' = k then (k', r) :: rest else (k', r') :: Rooms.replace k r rest

/-- The assignment `rooms[k] = r`: an existing own property keeps its place,
a new one is ordered as `Object.keys` orders it. -/
def Rooms.assign (rs : Rooms) (k : String) (r : Room) : Rooms :=
  match rs.own k with
  | some _ => Rooms.replace k r rs
  | none =>
    match arrayIndex k with
    | some n => Rooms.insertIndexed n k r rs
    | none => rs ++ [(k, r)]

/-- The statement `delete rooms[k]`. -/
def Rooms.delete : Rooms → String → Rooms
  | [], _ => []
  | (k', r) :: rest, k =>
    if k' = k then Rooms.delete rest k else (k', r) :: Rooms.delete rest k

/-- A broadcast `io.to(roomId).emit(...)`.  In `gameOver`, `draw = false` stands
for a payload without the `draw` field. -/
inductive Emit where
  | roomUpdate (roomId : String) (room : Room)
  | playerCount (roomId : String) (count : Nat)
  | opponentJoined (roomId : String)
  | opponentLeft (roomId : String)
  | gameOver (roomId : String) (winner : Option Mark) (board : Board) (draw : Bool)
deriving DecidableEq, Repr

/-- The object passed to the acknowledgment callback. -/
inductive Ack where
  | failure (error : String)
  | success (room : Slot)
deriving DecidableEq, Repr

/-- What one handler invocation leaves behind. -/
structure Outcome where
  rooms : Rooms
  emits : List Emit
  ack : Option Ack
  thrown : Bool
deriving DecidableEq, Repr

/-! ## `checkWinner` (server.js:18-36) -/

/-- The eight triples, in the order of the source array. -/
def winningCombinations : List (Nat × Nat × Nat) :=
  [(0, 1, 2), (3, 4, 5), (6, 7, 8),
   (0, 3, 6), (1, 4, 7), (2, 5, 8),
   (0, 4, 8), (2, 4, 6)]

/-- The `for ... of` loop of `checkWinner` over the remaining combinations. -/
def checkWinnerLoop (board : Board) : List (Nat × Nat × Nat) → Option Mark
  | [] => none
  | (a, b, c) :: rest =>
    match board[a]? with
    | some (some m) =>
      if board[a]? = board[b]? ∧ board[b]? = board[c]? then some m
      else checkWinnerLoop board rest
    | _ => checkWinnerLoop board rest

/-- The function `checkWinner`: the mark of the first uniformly filled triple, or `null`. -/
def checkWinner (board : Board) : Option Mark :=
  checkWinnerLoop board winningCombinations

/-! ## Socket handlers (server.js:41-181) -/

/-- The room literal of server.js:52-56. -/
def newRoom (sender : String) : Room :=
  { players := [sender], board := List.replicate 9 none, turn := Mark.X, gameOver := false }

/-- Handler of `createRoom` (server.js:41-65). -/
def createRoom (rs : Rooms) (sender roomId : String) : Outcome :=
  if roomId = "" then
    { rooms := rs, emits := [], ack := some (Ack.failure "Room ID cannot be empty"), thrown := false }
  else if (rs.get roomId).truthy then
    { rooms := rs, emits := [], ack := some (Ack.failure "Room already exists"), thrown := false }
  else
    -- the later reads of `rooms[roomId]` give back the object stored here
    let r := newRoom sender
    { rooms := rs.assign roomId r,
      emits := [Emit.roomUpdate roomId r, Emit.playerCount roomId r.players.length],
      ack := some (Ack.success (Slot.room r)), thrown := false }

/-- In-place update of the room stored under the own property `k`. -/
def Rooms.modify (k : String) (f : Room → Room) : Rooms → Rooms
  | [] => []
  | (k', r) :: rest =>
    if k' = k then (k', f r) :: rest else (k', r) :: Rooms.modify k f rest

/-- Handler of `joinRoom` (server.js:67-96). -/
def joinRoom (rs : Rooms) (sender roomId : String) : Outcome :=
  if roomId = "" then
    { rooms := rs, emits := [], ack := some (Ack.failure "Room ID cannot be empty"), thrown := false }
  else
    match rs.get roomId with
    | Slot.undefined =>
      { rooms := rs, emits := [], ack := some (Ack.failure "Room does not exist"), thrown := false }
    | Slot.inherited =>
      -- `rooms[roomId].players` is `undefined`; reading `.length` throws
      { rooms := rs, emits := [], ack := none, thrown := true }
    | Slot.room r =>
      if 2 ≤ r.players.length then
        { rooms := rs, emits := [], ack := some (Ack.failure "Room is full"), thrown := false }
      else
        let r' : Room := { r with players := r.players ++ [sender] }
        { rooms := Rooms.modify roomId (fun _ => r') rs,
          emits := [Emit.roomUpdate roomId r', Emit.playerCount roomId r'.players.length]
            ++ (if r'.players.length = 2 then [Emit.opponentJoined roomId] else []),
          ack := some (Ack.success (Slot.room r')), thrown := false }

/-- The turn toggle `room.turn === "X" ? "O" : "X"`. -/
def Mark.toggle : Mark → Mark
  | Mark.X => Mark.O
  | Mark.O => Mark.X

/-- Handler of `makeMove` (server.js:98-133).  The sender is only logged. -/
def makeMove (rs : Rooms) (_sender roomId : String) (index : Int) : Outcome :=
  match rs.get roomId with
  | Slot.undefined => { rooms := rs, emits := [], ack := none, thrown := false }
  | Slot.inherited =>
    -- `gameOver` is `undefined`, then `room.board[index]` reads a property of `undefined`
    { rooms := rs, emits := [], ack := none, thrown := true }
  | Slot.room room =>
    if room.gameOver then { rooms := rs, emits := [], ack := none, thrown := false }
    else if room.board.read index = some none then
      let board' := room.board.write (some room.turn) index
      match checkWinner board' with
      | some winner =>
        { rooms := Rooms.modify roomId (fun _ => { room with board := board', gameOver := true }) rs,
          emits := [Emit.gameOver roomId (some winner) board' false],
          ack := none, thrown := false }
      | none =>
        if board'.all (fun cell => decide (cell ≠ none)) then
          { rooms := Rooms.modify roomId (fun _ => { room with board := board', gameOver := true }) rs,
            emits := [Emit.gameOver roomId none board' true],
            ack := none, thrown := false }
        else
          let room' : Room := { room with board := board', turn := room.turn.toggle }
          { rooms := Rooms.modify roomId (fun _ => room') rs,
            emits := [Emit.roomUpdate roomId room'],
            ack := none, thrown := false }
    else { rooms := rs, emits := [], ack := none, thrown := false }

/-- Handler of `leaveRoom` (server.js:135-153). -/
def leaveRoom (rs : Rooms) (sender roomId : String) : Outcome :=
  match rs.get roomId with
  | Slot.undefined => { rooms := rs, emits := [], ack := none, thrown := false }
  | Slot.inherited =>
    -- `rooms[roomId].players` is `undefined`; calling `.filter` throws
    { rooms := rs, emits := [], ack := none, thrown := true }
  | Slot.room r =>
    let players' := r.players.filter (fun p => decide (p ≠ sender))
    let rs' := Rooms.modify roomId (fun room => { room with players := players' }) rs
    { rooms := if players'.length = 0 then rs'.delete roomId else rs',
      emits := [Emit.playerCount roomId players'.length, Emit.opponentLeft roomId],
      ack := none, thrown := false }

/-- Handler of `getRoomState` (server.js:155-161). -/
def getRoomState (rs : Rooms) (_sender roomId : String) : Outcome :=
  if (rs.get roomId).truthy then
    { rooms := rs, emits := [], ack := some (Ack.success (rs.get roomId)), thrown := false }
  else
    { rooms := rs, emits := [], ack := some (Ack.failure "Room not found"), thrown := false }

/-- The `forEach` of `disconnect` over the remaining keys of the snapshot
`Object.keys(rooms)`; `acc` is the outcome so far. -/
def disconnectLoop (sender : String) : List String → Outcome → Outcome
  | [], acc => acc
  | roomId :: keys, acc =>
    match acc.rooms.get roomId with
    | Slot.room r =>
      if sender ∈ r.players then
        let players' := r.players.filter (fun id => decide (id ≠ sender))
        let rs' := Rooms.modify roomId (fun room => { room with players := players' }) acc.rooms
        disconnectLoop sender keys
          { acc with
            rooms := if players'.length = 0 then rs'.delete roomId else rs',
            emits := acc.emits ++ [Emit.playerCount roomId players'.length, Emit.opponentLeft roomId] }
      else disconnectLoop sender keys acc
    | _ =>
      -- `rooms[roomId].players` is `undefined`; calling `.includes` throws
      { acc with thrown := true }

/-- Handler of `disconnect` (server.js:163-181). -/
def disconnect (rs : Rooms) (sender : String) : Outcome :=
  disconnectLoop sender (rs.map Prod.fst) { rooms := rs, emits := [], ack := none, thrown := false }

/-- The inbound events, each tagged with the sending connection. -/
inductive Event where
  | createRoom (sender roomId : String)
  | joinRoom (sender roomId : String)
  | makeMove (sender roomId : String) (index : Int)
  | leaveRoom (sender roomId : String)
  | getRoomState (sender roomId : String)
  | disconnect (sender : String)
deriving DecidableEq, Repr

/-- Dispatch of one inbound event to its handler. -/
def handle (rs : Rooms) : Event → Outcome
  | Event.createRoom s k => createRoom rs s k
  | Event.joinRoom s k => joinRoom rs s k
  | Event.makeMove s k i => makeMove rs s k i
  | Event.leaveRoom s k => leaveRoom rs s k
  | Event.getRoomState s k => getRoomState rs s k
  | Event.disconnect s => disconnect rs s

/-- The registry after a sequence of events, handled one after the other. -/
def run (rs : Rooms) : List Event → Rooms
  | [] => rs
  | e :: es => run (handle rs e).rooms es

/-- All broadcasts of a sequence of events, in order. -/
def runEmits (rs : Rooms) : List Event → List Emit
  | [] => []
  | e :: es => (handle rs e).emits ++ runEmits (handle rs e).rooms es

/-! ## Vocabulary of the properties -/

/-- The three cells of triple `t` all hold the mark `m`. -/
def filledWith (b : Board) (m : Mark) (t : Nat × Nat × Nat) : Prop :=
  b[t.1]? = some (some m) ∧ b[t.2.1]? = some (some m) ∧ b[t.2.2]? = some (some m)

instance (b : Board) (m : Mark) (t : Nat × Nat × Nat) : Decidable (filledWith b m t) := by
  unfold filledWith; infer_instance

/-- The nine-cell board holding `m` on exactly the cells of `t`. -/
def lineBoard (t : Nat × Nat × Nat) (m : Mark) : Board :=
  (List.range 9).map (fun i => if i = t.1 ∨ i = t.2.1 ∨ i = t.2.2 then some m else none)

/-- Room `k`, if still registered in `rs'`, was registered in `rs` with the
same board and the same `gameOver` flag. -/
def gameKept (rs rs' : Rooms) (k : String) : Prop :=
  ∀ r', rs'.own k = some r' →
    ∃ r, rs.own k = some r ∧ r'.board = r.board ∧ r'.gameOver = r.gameOver

/-- State of a room after moves on the distinct cells `played` of a fresh
room: nine cells, and either the game is over with a full board or a uniformly
filled triple, or it is open, an empty cell is left, and the empty cells are
exactly the ones not played yet. -/
def playedInv (room : Room) (played : List Nat) : Prop :=
  room.board.length = 9 ∧
  ((room.gameOver = true ∧
      (none ∉ room.board ∨ ∃ t ∈ winningCombinations, ∃ m, filledWith room.board m t)) ∨
   (room.gameOver = false ∧ none ∈ room.board ∧
      ∀ n, n < 9 → (room.board[n]? = some none ↔ n ∉ played)))

/-- Nine moves on nine different cells in which `X` completes the top row with
the fifth move; each move is paired with the connection sending it. -/
def earlyWinMoves : List (String × Nat) :=
  [("P1", 0), ("P2", 3), ("P1", 1), ("P2", 4), ("P1", 2),
   ("P2", 5), ("P1", 6), ("P2", 7), ("P1", 8)]

/-- The scenario of the spec: `P1` creates `"abc"`, `P2` joins, then the moves
0, 4, 1, 5, 2 are sent in turn. -/
def winScenario : List Event :=
  [Event.createRoom "P1" "abc", Event.joinRoom "P2" "abc",
   Event.makeMove "P1" "abc" 0, Event.makeMove "P2" "abc" 4,
   Event.makeMove "P1" "abc" 1, Event.makeMove "P2" "abc" 5,
   Event.makeMove "P1" "abc" 2]

/-- A registry the server can be in: the one left by some sequence of events
handled from the empty registry of server.js:16. -/
def Reachable (rs : Rooms) : Prop :=
  ∃ es, run [] es = rs

/-- The room a broadcast is sent to. -/
def Emit.target : Emit → String
  | Emit.roomUpdate roomId _ => roomId
  | Emit.playerCount roomId _ => roomId
  | Emit.opponentJoined roomId => roomId
  | Emit.opponentLeft roomId => roomId
  | Emit.gameOver roomId _ _ _ => roomId

/-- Number of cells of the board holding the mark `m`. -/
def Board.marks (b : Board) (m : Mark) : Nat :=
  b.count (some m)

/-- Room `k`, if still registered in `rs'`, was registered in `rs` with the
same board, turn and `gameOver` flag, and with the same players or with the
players other than `s`, of which there is at least one. -/
def keptBut (s : String) (rs rs' : Rooms) (k : String) : Prop :=
  ∀ r', rs'.own k = some r' →
    ∃ r, rs.own k = some r ∧ r'.board = r.board ∧ r'.turn = r.turn ∧
      r'.gameOver = r.gameOver ∧
      (r'.players = r.players ∨
        (r'.players = r.players.filter (fun p => decide (p ≠ s)) ∧ r'.players ≠ []))

/-- Room `k` is registered and lists `c` among its players. -/
def Rooms.lists (rs : Rooms) (c k : String) : Bool :=
  match rs.own k with
  | some r => decide (c ∈ r.players)
  | none => false

/-- The registered rooms whose players contain `c`, in registry key order. -/
def roomsContaining (rs : Rooms) (c : String) : List String :=
  (rs.map Prod.fst).filter (rs.lists c)

/-- The spec's account of `disconnectAll`: `leaveRoom` by `c` applied to the
given rooms one after the other; the registry left and the broadcasts sent. -/
def leaveEach (c : String) : List String → Rooms → Rooms × List Emit
  | [], rs => (rs, [])
  | k :: ks, rs =>
    ((leaveEach c ks (leaveRoom rs c k).rooms).1,
     (leaveRoom rs c k).emits ++ (leaveEach c ks (leaveRoom rs c k).rooms).2)

/-- The players of a room once `c` is filtered out. -/
def playersWithout (c : String) (r : Room) : List String :=
  r.players.filter (fun p => decide (p ≠ c))

/-- The two broadcasts sent to room `k` when `c` is removed from it. -/
def removalEmits (c : String) (rs : Rooms) (k : String) : List Emit :=
  match rs.own k with
  | some r => [Emit.playerCount k (playersWithout c r).length, Emit.opponentLeft k]
  | none => []

/-- Number of players of room `k`; zero when `k` is not registered. -/
def Rooms.playersIn (rs : Rooms) (k : String) : Nat :=
  match rs.own k with
  | some r => r.players.length
  | none => 0

/-- A registry of three rooms: `P1` and `P2` share room `"a"`, `P1` is alone in
`"b"`, `P2` is alone in `"c"`. -/
def threeRooms : Rooms :=
  [("a", { players := ["P1", "P2"], board := List.replicate 9 none, turn := Mark.X,
           gameOver := false }),
   ("b", newRoom "P1"),
   ("c", newRoom "P2")]

/-- What `disconnect` of `c` makes of a registered room: untouched when `c` is
not among its players, otherwise `c` is filtered out and the room is dropped
when nobody is left. -/
def afterDisconnect (c : String) (r : Room) : Option Room :=
  if c ∈ r.players then
    if (playersWithout c r).length = 0 then none
    else some { r with players := playersWithout c r }
  else some r

end Server

namespace Server

/-! ## The registry as a keyed list -/

theorem Rooms.own_cons (k' : String) (r : Room) (rest : Rooms) (k : String) :
    Rooms.own ((k', r) :: rest) k = if k' = k then some r else Rooms.own rest k := rfl

theorem Rooms.own_modify (k : String) (f : Room → Room) (rs : Rooms) (k' : String) :
    (Rooms.modify k f rs).own k' = if k' = k then (rs.own k').map f else rs.own k' := by
  induction rs with
  | nil => simp [Rooms.modify, Rooms.own]
  | cons e rest ih =>
    obtain ⟨k₀, r₀⟩ := e
    by_cases h₀ : k₀ = k
    · subst h₀
      by_cases hk : k' = k₀
      · subst hk; simp [Rooms.modify, Rooms.own]
      · have : ¬ k₀ = k' := fun h => hk h.symm
        simp [Rooms.modify, Rooms.own, hk, this]
    · by_cases hk : k' = k
      · subst hk
        simp [Rooms.modify, Rooms.own, h₀, ih]
      · simp only [Rooms.modify, h₀, if_false, Rooms.own, ih, hk]

theorem Rooms.keys_modify (k : String) (f : Room → Room) (rs : Rooms) :
    (Rooms.modify k f rs).map Prod.fst = rs.map Prod.fst := by
  induction rs with
  | nil => rfl
  | cons e rest ih =>
    obtain ⟨k₀, r₀⟩ := e
    by_cases h₀ : k₀ = k <;> simp [Rooms.modify, h₀, ih]

theorem Rooms.length_modify (k : String) (f : Room → Room) (rs : Rooms) :
    (Rooms.modify k f rs).length = rs.length := by
  simpa using congrArg List.length (Rooms.keys_modify k f rs)

theorem Rooms.modify_of_own_none (k : String) (f : Room → Room) (rs : Rooms)
    (h : rs.own k = none) : Rooms.modify k f rs = rs := by
  induction rs with
  | nil => rfl
  | cons e rest ih =>
    obtain ⟨k₀, r₀⟩ := e
    by_cases h₀ : k₀ = k
    · simp [Rooms.own, h₀] at h
    · simp only [Rooms.own, h₀, if_false] at h
      simp [Rooms.modify, h₀, ih h]

theorem Rooms.own_delete (rs : Rooms) (k k' : String) :
    (rs.delete k).own k' = if k' = k then none else rs.own k' := by
  induction rs with
  | nil => simp [Rooms.delete, Rooms.own]
  | cons e rest ih =>
    obtain ⟨k₀, r₀⟩ := e
    by_cases h₀ : k₀ = k
    · subst h₀
      by_cases hk : k' = k₀
      · subst hk; simp [Rooms.delete, ih]
      · have : ¬ k₀ = k' := fun h => hk h.symm
        simp [Rooms.delete, Rooms.own, ih, hk, this]
    · by_cases hk : k' = k
      · subst hk
        simp [Rooms.delete, h₀, Rooms.own, ih]
      · simp [Rooms.delete, h₀, Rooms.own, ih, hk]

theorem Rooms.own_replace (k : String) (r : Room) (rs : Rooms) (k' : String) :
    (Rooms.replace k r rs).own k' =
      if k' = k then (rs.own k').map (fun _ => r) else rs.own k' := by
  induction rs with
  | nil => simp [Rooms.replace, Rooms.own]
  | cons e rest ih =>
    obtain ⟨k₀, r₀⟩ := e
    by_cases h₀ : k₀ = k
    · subst h₀
      by_cases hk : k' = k₀
      · subst hk; simp [Rooms.replace, Rooms.own]
      · have : ¬ k₀ = k' := fun h => hk h.symm
        simp [Rooms.replace, Rooms.own, hk, this]
    · by_cases hk : k' = k
      · subst hk
        simp [Rooms.replace, Rooms.own, h₀, ih]
      · simp only [Rooms.replace, h₀, if_false, Rooms.own, ih, hk]

theorem Rooms.own_insertIndexed (n : Nat) (k : String) (r : Room) (rs : Rooms)
    (h : rs.own k = none) (k' : String) :
    (Rooms.insertIndexed n k r rs).own k' = if k' = k then some r else rs.own k' := by
  induction rs with
  | nil =>
    by_cases hk : k' = k
    · subst hk; simp [Rooms.insertIndexed, Rooms.own]
    · have : ¬ k = k' := fun h => hk h.symm
      simp [Rooms.insertIndexed, Rooms.own, hk, this]
  | cons e rest ih =>
    obtain ⟨k₀, r₀⟩ := e
    have h₀ : ¬ k₀ = k := by
      intro h₀; simp [Rooms.own, h₀] at h
    have hrest : Rooms.own rest k = none := by
      simpa [Rooms.own, h₀] using h
    have hnew : Rooms.own ((k, r) :: (k₀, r₀) :: rest) k' =
        if k' = k then some r else Rooms.own ((k₀, r₀) :: rest) k' := by
      by_cases hk : k' = k
      · subst hk; simp [Rooms.own]
      · have : ¬ k = k' := fun h => hk h.symm
        simp [Rooms.own, hk, this]
    rw [Rooms.insertIndexed]
    split
    · split
      · rw [Rooms.own_cons, ih hrest, Rooms.own_cons]
        by_cases hk : k' = k
        · subst hk; simp [h₀]
        · simp [hk]
      · exact hnew
    · exact hnew

theorem Rooms.own_append_single (rs : Rooms) (k : String) (r : Room)
    (h : rs.own k = none) (k' : String) :
    Rooms.own (rs ++ [(k, r)]) k' = if k' = k then some r else rs.own k' := by
  induction rs with
  | nil =>
    by_cases hk : k' = k
    · subst hk; simp [Rooms.own]
    · have : ¬ k = k' := fun h => hk h.symm
      simp [Rooms.own, hk, this]
  | cons e rest ih =>
    obtain ⟨k₀, r₀⟩ := e
    have h₀ : ¬ k₀ = k := by
      intro h₀; simp [Rooms.own, h₀] at h
    have hrest : Rooms.own rest k = none := by
      simpa [Rooms.own, h₀] using h
    rw [List.cons_append, Rooms.own_cons, ih hrest, Rooms.own_cons]
    by_cases hk : k' = k
    · subst hk; simp [h₀]
    · simp [hk]

/-- Reading back after `rooms[k] = r`. -/
theorem Rooms.own_assign (rs : Rooms) (k : String) (r : Room) (k' : String) :
    (rs.assign k r).own k' = if k' = k then some r else rs.own k' := by
  unfold Rooms.assign
  split
  · rename_i r₀ h
    rw [Rooms.own_replace]
    by_cases hk : k' = k
    · subst hk; simp [h]
    · simp [hk]
  · rename_i h
    split
    · exact Rooms.own_insertIndexed _ k r rs h k'
    · exact Rooms.own_append_single rs k r h k'

theorem Rooms.length_insertIndexed (n : Nat) (k : String) (r : Room) (rs : Rooms) :
    (Rooms.insertIndexed n k r rs).length = rs.length + 1 := by
  induction rs with
  | nil => rfl
  | cons e rest ih =>
    obtain ⟨k₀, r₀⟩ := e
    rw [Rooms.insertIndexed]
    split
    · split
      · simp [ih]
      · simp
    · simp

theorem Rooms.length_assign_new (rs : Rooms) (k : String) (r : Room) (h : rs.own k = none) :
    (rs.assign k r).length = rs.length + 1 := by
  unfold Rooms.assign
  rw [h]
  simp only
  split
  · exact Rooms.length_insertIndexed _ k r rs
  · simp

theorem Rooms.get_eq_room_iff (rs : Rooms) (k : String) (r : Room) :
    rs.get k = Slot.room r ↔ rs.own k = some r := by
  unfold Rooms.get
  split
  · rename_i r' h; simp [h]
  · rename_i h; simp [h]; split <;> simp

/-! ## `checkWinner` -/

theorem checkWinnerLoop_cons_filled {b : Board} {m : Mark} {t : Nat × Nat × Nat}
    (rest : List (Nat × Nat × Nat)) (h : filledWith b m t) :
    checkWinnerLoop b (t :: rest) = some m := by
  obtain ⟨x, y, z⟩ := t
  obtain ⟨h1, h2, h3⟩ := h
  simp only at h1 h2 h3
  simp [checkWinnerLoop, h1, h2, h3]

theorem checkWinnerLoop_cons_not_filled {b : Board} {t : Nat × Nat × Nat}
    (rest : List (Nat × Nat × Nat)) (h : ∀ m, ¬ filledWith b m t) :
    checkWinnerLoop b (t :: rest) = checkWinnerLoop b rest := by
  obtain ⟨x, y, z⟩ := t
  rw [checkWinnerLoop]
  split
  · rename_i m hm
    split
    · rename_i hc
      exact absurd ⟨hm, hc.1 ▸ hm, hc.2 ▸ hc.1 ▸ hm⟩ (h m)
    · rfl
  · rfl

/-- The loop returns `m` exactly when the first uniformly filled triple of the
list holds `m`. -/
theorem checkWinnerLoop_eq_some (b : Board) (m : Mark) (l : List (Nat × Nat × Nat)) :
    checkWinnerLoop b l = some m ↔
      ∃ pre t post, l = pre ++ t :: post ∧ filledWith b m t ∧
        ∀ t' ∈ pre, ∀ m', ¬ filledWith b m' t' := by
  induction l with
  | nil => simp [checkWinnerLoop]
  | cons t rest ih =>
    by_cases hf : ∃ m', filledWith b m' t
    · obtain ⟨m', hm'⟩ := hf
      rw [checkWinnerLoop_cons_filled rest hm']
      constructor
      · intro h
        injection h with h
        subst h
        exact ⟨[], t, rest, rfl, hm', by simp⟩
      · rintro ⟨pre, t', post, hl, ht', hpre⟩
        cases pre with
        | nil =>
          simp at hl
          obtain ⟨rfl, -⟩ := hl
          have := hm'.1.symm.trans ht'.1
          simpa using this
        | cons p pre =>
          simp at hl
          obtain ⟨rfl, -⟩ := hl
          exact absurd hm' (hpre _ (by simp) m')
    · have hn : ∀ m', ¬ filledWith b m' t := fun m' h => hf ⟨m', h⟩
      rw [checkWinnerLoop_cons_not_filled rest hn, ih]
      constructor
      · rintro ⟨pre, t', post, hl, ht', hpre⟩
        refine ⟨t :: pre, t', post, by simp [hl], ht', ?_⟩
        intro t'' ht'' m'
        rcases List.mem_cons.1 ht'' with rfl | h
        · exact hn m'
        · exact hpre _ h m'
      · rintro ⟨pre, t', post, hl, ht', hpre⟩
        cases pre with
        | nil =>
          simp at hl
          obtain ⟨rfl, -⟩ := hl
          exact absurd ht' (hn m)
        | cons p pre =>
          simp at hl
          obtain ⟨rfl, rfl⟩ := hl
          exact ⟨pre, t', post, rfl, ht', fun t'' h => hpre t'' (by simp [h])⟩

/-- The loop returns a mark exactly when some triple of the list is uniformly filled. -/
theorem checkWinnerLoop_ne_none (b : Board) (l : List (Nat × Nat × Nat)) :
    checkWinnerLoop b l ≠ none ↔ ∃ t ∈ l, ∃ m, filledWith b m t := by
  induction l with
  | nil => simp [checkWinnerLoop]
  | cons t rest ih =>
    by_cases hf : ∃ m', filledWith b m' t
    · obtain ⟨m', hm'⟩ := hf
      rw [checkWinnerLoop_cons_filled rest hm']
      simp only [ne_eq, reduceCtorEq, not_false_eq_true, true_iff]
      exact ⟨t, by simp, m', hm'⟩
    · have hn : ∀ m', ¬ filledWith b m' t := fun m' h => hf ⟨m', h⟩
      rw [checkWinnerLoop_cons_not_filled rest hn, ih]
      constructor
      · rintro ⟨t', h, m, hm⟩
        exact ⟨t', by simp [h], m, hm⟩
      · rintro ⟨t', h, m, hm⟩
        rcases List.mem_cons.1 h with rfl | h
        · exact absurd hm (hn m)
        · exact ⟨t', h, m, hm⟩

/-- `checkWinner` returns a mark exactly when one of the eight triples is uniformly filled. -/
theorem checkWinner_ne_none_iff (b : Board) :
    checkWinner b ≠ none ↔ ∃ t ∈ winningCombinations, ∃ m, filledWith b m t :=
  checkWinnerLoop_ne_none b winningCombinations

/-- Claim C1: on a nine-cell board, `checkWinner` returns a mark if and only if
one of the eight triples holds three identical marks; the mark returned is that
of the first such triple in the order rows, columns, diagonals; a board holding
a mark on exactly one triple returns that mark; a board without three in a row
returns `null`. -/
theorem checkWinner_spec (b : Board) (_hlen : b.length = 9) :
    winningCombinations =
      [(0, 1, 2), (3, 4, 5), (6, 7, 8), (0, 3, 6), (1, 4, 7), (2, 5, 8), (0, 4, 8), (2, 4, 6)] ∧
    (checkWinner b ≠ none ↔ ∃ t ∈ winningCombinations, ∃ m, filledWith b m t) ∧
    (∀ m, checkWinner b = some m ↔
      ∃ pre t post, winningCombinations = pre ++ t :: post ∧ filledWith b m t ∧
        ∀ t' ∈ pre, ∀ m', ¬ filledWith b m' t') ∧
    (∀ t ∈ winningCombinations, ∀ m, checkWinner (lineBoard t m) = some m) ∧
    ((∀ t ∈ winningCombinations, ∀ m, ¬ filledWith b m t) → checkWinner b = none) := by
  refine ⟨rfl, checkWinnerLoop_ne_none b _, fun m => checkWinnerLoop_eq_some b m _, ?_, ?_⟩
  · intro t ht m
    simp only [winningCombinations, List.mem_cons, List.mem_singleton, List.not_mem_nil,
      or_false] at ht
    rcases ht with rfl | rfl | rfl | rfl | rfl | rfl | rfl | rfl <;> cases m <;> rfl
  · intro h
    by_contra hne
    obtain ⟨t, ht, m, hm⟩ := (checkWinnerLoop_ne_none b _).1 hne
    exact h t ht m hm

/-- Claim C1 at a board where both the first column and the main diagonal hold
`O`: the column comes first in the enumeration and decides. -/
theorem checkWinner_spec_witness :
    checkWinner [some Mark.O, some Mark.X, some Mark.X,
                 some Mark.O, some Mark.O, none,
                 some Mark.O, none, some Mark.O] = some Mark.O ∧
    ∃ pre t post, winningCombinations = pre ++ t :: post ∧
      filledWith [some Mark.O, some Mark.X, some Mark.X,
                  some Mark.O, some Mark.O, none,
                  some Mark.O, none, some Mark.O] Mark.O t ∧
      ∀ t' ∈ pre, ∀ m', ¬ filledWith [some Mark.O, some Mark.X, some Mark.X,
                  some Mark.O, some Mark.O, none,
                  some Mark.O, none, some Mark.O] m' t' :=
  ⟨by decide,
   ((checkWinner_spec [some Mark.O, some Mark.X, some Mark.X,
                 some Mark.O, some Mark.O, none,
                 some Mark.O, none, some Mark.O] (by decide)).2.2.1 Mark.O).1 (by decide)⟩

/-! ## `makeMove` -/

theorem Rooms.get_of_own {rs : Rooms} {k : String} {r : Room} (h : rs.own k = some r) :
    rs.get k = Slot.room r := by
  simp [Rooms.get, h]

theorem Rooms.get_ne_room_of_own_none {rs : Rooms} {k : String} (h : rs.own k = none) :
    rs.get k = Slot.undefined ∨ rs.get k = Slot.inherited := by
  unfold Rooms.get
  rw [h]
  by_cases hk : k ∈ objectPrototypeKeys <;> simp [hk]

theorem Board.read_eq_none_of_outside {b : Board} {i : Int} (hlen : b.length = 9)
    (h : i < 0 ∨ 8 < i) : b.read i = none := by
  cases i with
  | ofNat n =>
    have hn : 9 ≤ n := by
      rcases h with h | h
      · exact absurd h (by simp)
      · have : (8 : Int) < (n : Int) := h
        omega
    simp only [Board.read]
    exact List.getElem?_eq_none (by omega)
  | negSucc n => rfl

theorem makeMove_of_own_none {rs : Rooms} {roomId : String} (sender : String) (index : Int)
    (h : rs.own roomId = none) :
    (makeMove rs sender roomId index).rooms = rs ∧ (makeMove rs sender roomId index).emits = [] := by
  rcases Rooms.get_ne_room_of_own_none h with hg | hg <;> simp [makeMove, hg]

theorem makeMove_of_gameOver {rs : Rooms} {roomId : String} {room : Room} (sender : String)
    (index : Int) (h : rs.own roomId = some room) (hover : room.gameOver = true) :
    makeMove rs sender roomId index = { rooms := rs, emits := [], ack := none, thrown := false } := by
  simp [makeMove, Rooms.get_of_own h, hover]

theorem makeMove_of_not_empty {rs : Rooms} {roomId : String} {room : Room} (sender : String)
    {index : Int} (h : rs.own roomId = some room) (hcell : room.board.read index ≠ some none) :
    makeMove rs sender roomId index = { rooms := rs, emits := [], ack := none, thrown := false } := by
  simp [makeMove, Rooms.get_of_own h, hcell]

/-- On a name that is not registered, `makeMove` stops with a `TypeError`
exactly when the name is inherited from `Object.prototype`. -/
theorem makeMove_thrown_of_own_none {rs : Rooms} {roomId : String} (sender : String)
    (index : Int) (h : rs.own roomId = none) :
    (makeMove rs sender roomId index).thrown = true ↔ roomId ∈ objectPrototypeKeys := by
  by_cases hk : roomId ∈ objectPrototypeKeys <;> simp [makeMove, Rooms.get, h, hk]

/-- Claim C4 fails on the code at a name inherited from `Object.prototype`:
`"toString"` is not registered, yet `makeMove` is not silently ignored; it stops
with a `TypeError` when it reads `room.board[index]`, on the empty registry and
equally while a game is in progress in another room. -/
theorem makeMove_inherited_name :
    Rooms.own [] "toString" = none ∧
    makeMove [] "P1" "toString" 0 = { rooms := [], emits := [], ack := none, thrown := true } ∧
    (run [] (winScenario.take 4)).own "toString" = none ∧
    (makeMove (run [] (winScenario.take 4)) "P1" "toString" 0).thrown = true := by
  decide

/-- Whenever `roomId` is not registered, or the room's `gameOver` is true, or
`index` does not designate an empty cell (the cell is occupied, or, on a
nine-cell board, `index` lies outside 0..8), `makeMove` leaves the whole
registry unchanged and emits no broadcast; it then returns normally, except on
an unregistered name inherited from `Object.prototype`, where it throws. -/
theorem makeMove_ignored (rs : Rooms) (sender roomId : String) (index : Int)
    (h : rs.own roomId = none ∨
      ∃ room, rs.own roomId = some room ∧
        (room.gameOver = true ∨ room.board.read index ≠ some none ∨
          (room.board.length = 9 ∧ (index < 0 ∨ 8 < index)))) :
    (makeMove rs sender roomId index).rooms = rs ∧
    (makeMove rs sender roomId index).emits = [] ∧
    ((makeMove rs sender roomId index).thrown = true ↔
      (rs.own roomId = none ∧ roomId ∈ objectPrototypeKeys)) := by
  rcases h with h | ⟨room, hroom, hover | hcell | ⟨hlen, hout⟩⟩
  · refine ⟨(makeMove_of_own_none sender index h).1, (makeMove_of_own_none sender index h).2, ?_⟩
    rw [makeMove_thrown_of_own_none sender index h]
    simp [h]
  · simp [makeMove_of_gameOver sender index hroom hover, hroom]
  · simp [makeMove_of_not_empty sender hroom hcell, hroom]
  · have : room.board.read index ≠ some none := by
      rw [Board.read_eq_none_of_outside hlen hout]; simp
    simp [makeMove_of_not_empty sender hroom this, hroom]

/-- A second move on a cell that is taken changes nothing, sends nothing and
returns normally. -/
theorem makeMove_ignored_witness :
    (makeMove [("r", { players := ["P1", "P2"],
                       board := [some Mark.X, none, none, none, none, none, none, none, none],
                       turn := Mark.O, gameOver := false })] "P2" "r" 0).rooms =
      [("r", { players := ["P1", "P2"],
               board := [some Mark.X, none, none, none, none, none, none, none, none],
               turn := Mark.O, gameOver := false })] ∧
    (makeMove [("r", { players := ["P1", "P2"],
                       board := [some Mark.X, none, none, none, none, none, none, none, none],
                       turn := Mark.O, gameOver := false })] "P2" "r" 0).emits = [] :=
  have h := makeMove_ignored
    [("r", { players := ["P1", "P2"],
             board := [some Mark.X, none, none, none, none, none, none, none, none],
             turn := Mark.O, gameOver := false })] "P2" "r" 0
    (Or.inr ⟨{ players := ["P1", "P2"],
               board := [some Mark.X, none, none, none, none, none, none, none, none],
               turn := Mark.O, gameOver := false }, by decide, Or.inr (Or.inl (by decide))⟩)
  ⟨h.1, h.2.1⟩

/-- What `makeMove` does on an open room and an empty cell, branch by branch. -/
theorem makeMove_accepted {rs : Rooms} {roomId : String} {room : Room} (sender : String)
    {index : Int} (h : rs.own roomId = some room) (hopen : room.gameOver = false)
    (hcell : room.board.read index = some none) :
    makeMove rs sender roomId index =
      match checkWinner (room.board.write (some room.turn) index) with
      | some winner =>
        { rooms := Rooms.modify roomId (fun _ => { room with
              board := room.board.write (some room.turn) index, gameOver := true }) rs,
          emits := [Emit.gameOver roomId (some winner)
              (room.board.write (some room.turn) index) false],
          ack := none, thrown := false }
      | none =>
        if (room.board.write (some room.turn) index).all (fun cell => decide (cell ≠ none)) then
          { rooms := Rooms.modify roomId (fun _ => { room with
                board := room.board.write (some room.turn) index, gameOver := true }) rs,
            emits := [Emit.gameOver roomId none (room.board.write (some room.turn) index) true],
            ack := none, thrown := false }
        else
          { rooms := Rooms.modify roomId (fun _ => { room with
                board := room.board.write (some room.turn) index,
                turn := room.turn.toggle }) rs,
            emits := [Emit.roomUpdate roomId { room with
                board := room.board.write (some room.turn) index,
                turn := room.turn.toggle }],
            ack := none, thrown := false } := by
  simp only [makeMove, Rooms.get_of_own h, hopen, hcell, if_true]
  rfl

theorem Rooms.own_modify_const_self {rs : Rooms} {k : String} {r : Room} (r' : Room)
    (h : rs.own k = some r) : (Rooms.modify k (fun _ => r') rs).own k = some r' := by
  simp [Rooms.own_modify, h]

theorem Rooms.own_modify_other {rs : Rooms} {k k' : String} (f : Room → Room) (h : k' ≠ k) :
    (Rooms.modify k f rs).own k' = rs.own k' := by
  simp [Rooms.own_modify, h]

/-- Claim C6: on an open room and an empty cell, if the board with the turn's
mark written at `index` holds a uniformly filled triple, `makeMove` stores that
board with `gameOver = true`, keeps `turn` and `players` (and every other room),
and emits exactly one broadcast, the `gameOver` event with the updated board and
`winner = checkWinner` of it, without the `draw` field; whether the board is
thereby full plays no part. -/
theorem makeMove_win (rs : Rooms) (sender roomId : String) (index : Int) (room : Room)
    (hroom : rs.own roomId = some room) (hopen : room.gameOver = false)
    (hcell : room.board.read index = some none)
    (hline : ∃ t ∈ winningCombinations, ∃ m,
      filledWith (room.board.write (some room.turn) index) m t) :
    (makeMove rs sender roomId index).rooms.own roomId =
      some { room with board := room.board.write (some room.turn) index, gameOver := true } ∧
    (∀ k, k ≠ roomId → (makeMove rs sender roomId index).rooms.own k = rs.own k) ∧
    (makeMove rs sender roomId index).rooms.map Prod.fst = rs.map Prod.fst ∧
    (makeMove rs sender roomId index).emits =
      [Emit.gameOver roomId (checkWinner (room.board.write (some room.turn) index))
        (room.board.write (some room.turn) index) false] ∧
    checkWinner (room.board.write (some room.turn) index) ≠ none ∧
    (makeMove rs sender roomId index).thrown = false := by
  have hw := (checkWinner_ne_none_iff _).2 hline
  rw [makeMove_accepted sender hroom hopen hcell]
  cases hc : checkWinner (room.board.write (some room.turn) index) with
  | none => exact absurd hc hw
  | some w =>
    refine ⟨Rooms.own_modify_const_self _ hroom, fun k hk => Rooms.own_modify_other _ hk,
      Rooms.keys_modify _ _ _, rfl, by simp, rfl⟩

/-- Claim C6 on a move that completes the top row and fills the last empty
cell: the broadcast is the win, not a draw. -/
theorem makeMove_win_witness :
    (makeMove [("r", { players := ["P1", "P2"],
                       board := [some Mark.X, some Mark.X, none,
                                 some Mark.O, some Mark.O, some Mark.X,
                                 some Mark.O, some Mark.X, some Mark.O],
                       turn := Mark.X, gameOver := false })] "P1" "r" 2).emits =
      [Emit.gameOver "r" (some Mark.X)
        [some Mark.X, some Mark.X, some Mark.X,
         some Mark.O, some Mark.O, some Mark.X,
         some Mark.O, some Mark.X, some Mark.O] false] :=
  (makeMove_win _ "P1" "r" 2
    { players := ["P1", "P2"],
      board := [some Mark.X, some Mark.X, none,
                some Mark.O, some Mark.O, some Mark.X,
                some Mark.O, some Mark.X, some Mark.O],
      turn := Mark.X, gameOver := false }
    (by decide) (by decide) (by decide) ⟨(0, 1, 2), by decide, Mark.X, by decide⟩).2.2.2.1


theorem Board.length_write (b : Board) (v : Cell) (i : Int) :
    (b.write v i).length = b.length := by
  cases i <;> simp [Board.write]

theorem Board.read_write_self {b : Board} {i : Int} {c : Cell} (v : Cell)
    (h : b.read i = some c) : (b.write v i).read i = some v := by
  cases i with
  | ofNat n =>
    simp only [Board.read] at h
    have hn : n < b.length := by
      by_contra hge
      rw [List.getElem?_eq_none (by omega)] at h
      exact absurd h (by simp)
    simp [Board.read, Board.write, hn]
  | negSucc n => simp [Board.read] at h

theorem Board.read_write_other (b : Board) (v : Cell) {i j : Int} (h : j ≠ i) :
    (b.write v i).read j = b.read j := by
  cases i with
  | ofNat n =>
    cases j with
    | ofNat m =>
      have hnm : n ≠ m := by
        rintro rfl; exact h rfl
      simp [Board.read, Board.write, List.getElem?_set, hnm]
    | negSucc m => rfl
  | negSucc n => rfl

/-- Claim C7: on an open room and an empty cell, if the board with the turn's
mark written at `index` has no uniformly filled triple and no empty cell,
`makeMove` stores that board with `gameOver = true`, keeps `turn` (and
`players`, and every other room), and emits exactly one broadcast, the
`gameOver` event with `winner = null`, `draw = true` and the updated board. -/
theorem makeMove_draw (rs : Rooms) (sender roomId : String) (index : Int) (room : Room)
    (hroom : rs.own roomId = some room) (hopen : room.gameOver = false)
    (hcell : room.board.read index = some none)
    (hnoline : ∀ t ∈ winningCombinations, ∀ m,
      ¬ filledWith (room.board.write (some room.turn) index) m t)
    (hfull : ∀ cell ∈ room.board.write (some room.turn) index, cell ≠ none) :
    (makeMove rs sender roomId index).rooms.own roomId =
      some { room with board := room.board.write (some room.turn) index, gameOver := true } ∧
    (∀ k, k ≠ roomId → (makeMove rs sender roomId index).rooms.own k = rs.own k) ∧
    (makeMove rs sender roomId index).rooms.map Prod.fst = rs.map Prod.fst ∧
    (makeMove rs sender roomId index).emits =
      [Emit.gameOver roomId none (room.board.write (some room.turn) index) true] ∧
    (makeMove rs sender roomId index).thrown = false := by
  have hw : checkWinner (room.board.write (some room.turn) index) = none := by
    by_contra hne
    obtain ⟨t, ht, m, hm⟩ := (checkWinner_ne_none_iff _).1 hne
    exact hnoline t ht m hm
  have hall : (room.board.write (some room.turn) index).all (fun cell => decide (cell ≠ none))
      = true := by
    rw [List.all_eq_true]
    intro c hc
    simpa using hfull c hc
  rw [makeMove_accepted sender hroom hopen hcell, hw]
  simp only
  rw [if_pos hall]
  exact ⟨Rooms.own_modify_const_self _ hroom, fun k hk => Rooms.own_modify_other _ hk,
    Rooms.keys_modify _ _ _, rfl, rfl⟩

/-- Claim C7 on the last move of a game nobody wins. -/
theorem makeMove_draw_witness :
    (makeMove [("r", { players := ["P1", "P2"],
                       board := [some Mark.X, some Mark.O, some Mark.X,
                                 some Mark.X, some Mark.O, some Mark.O,
                                 some Mark.O, some Mark.X, none],
                       turn := Mark.X, gameOver := false })] "P1" "r" 8).emits =
      [Emit.gameOver "r" none
        [some Mark.X, some Mark.O, some Mark.X,
         some Mark.X, some Mark.O, some Mark.O,
         some Mark.O, some Mark.X, some Mark.X] true] :=
  (makeMove_draw _ "P1" "r" 8
    { players := ["P1", "P2"],
      board := [some Mark.X, some Mark.O, some Mark.X,
                some Mark.X, some Mark.O, some Mark.O,
                some Mark.O, some Mark.X, none],
      turn := Mark.X, gameOver := false }
    (by decide) (by decide) (by decide)
    (by intro t ht m; cases m <;> revert t ht <;> decide) (by decide)).2.2.2.1

/-- Claim C8: on an open room and an empty cell, if the board with the turn's
mark written at `index` has no uniformly filled triple and still an empty cell,
`makeMove` changes the board at exactly that cell (to the old turn's mark),
flips `turn`, keeps `players` and `gameOver` (and every other room), and emits
exactly one broadcast, the `roomUpdate` with the updated room. -/
theorem makeMove_continue (rs : Rooms) (sender roomId : String) (index : Int) (room : Room)
    (hroom : rs.own roomId = some room) (hopen : room.gameOver = false)
    (hcell : room.board.read index = some none)
    (hnoline : ∀ t ∈ winningCombinations, ∀ m,
      ¬ filledWith (room.board.write (some room.turn) index) m t)
    (hempty : none ∈ room.board.write (some room.turn) index) :
    (makeMove rs sender roomId index).rooms.own roomId =
      some { room with board := room.board.write (some room.turn) index,
                       turn := room.turn.toggle } ∧
    (∀ k, k ≠ roomId → (makeMove rs sender roomId index).rooms.own k = rs.own k) ∧
    (makeMove rs sender roomId index).rooms.map Prod.fst = rs.map Prod.fst ∧
    (makeMove rs sender roomId index).emits =
      [Emit.roomUpdate roomId { room with board := room.board.write (some room.turn) index,
                                          turn := room.turn.toggle }] ∧
    (room.board.write (some room.turn) index).length = room.board.length ∧
    (room.board.write (some room.turn) index).read index = some (some room.turn) ∧
    (∀ j, j ≠ index → (room.board.write (some room.turn) index).read j = room.board.read j) ∧
    (room.turn = Mark.X → room.turn.toggle = Mark.O) ∧
    (room.turn = Mark.O → room.turn.toggle = Mark.X) ∧
    (makeMove rs sender roomId index).thrown = false := by
  have hw : checkWinner (room.board.write (some room.turn) index) = none := by
    by_contra hne
    obtain ⟨t, ht, m, hm⟩ := (checkWinner_ne_none_iff _).1 hne
    exact hnoline t ht m hm
  have hall : ¬ (room.board.write (some room.turn) index).all (fun cell => decide (cell ≠ none))
      = true := by
    rw [List.all_eq_true]
    intro hall
    simpa using hall none hempty
  rw [makeMove_accepted sender hroom hopen hcell, hw]
  simp only
  rw [if_neg hall]
  refine ⟨Rooms.own_modify_const_self _ hroom, fun k hk => Rooms.own_modify_other _ hk,
    Rooms.keys_modify _ _ _, rfl, Board.length_write _ _ _, Board.read_write_self _ hcell,
    fun j hj => Board.read_write_other _ _ hj, ?_, ?_, rfl⟩
  · intro h; rw [h]; rfl
  · intro h; rw [h]; rfl

/-- Claim C8 on the first move of a game, played on the centre cell. -/
theorem makeMove_continue_witness :
    (makeMove [("r", newRoom "P1")] "P1" "r" 4).rooms.own "r" =
      some { players := ["P1"],
             board := [none, none, none, none, some Mark.X, none, none, none, none],
             turn := Mark.O, gameOver := false } ∧
    (makeMove [("r", newRoom "P1")] "P1" "r" 4).emits =
      [Emit.roomUpdate "r"
        { players := ["P1"],
          board := [none, none, none, none, some Mark.X, none, none, none, none],
          turn := Mark.O, gameOver := false }] :=
  have h := makeMove_continue [("r", newRoom "P1")] "P1" "r" 4 (newRoom "P1")
    (by decide) (by decide) (by decide)
    (by intro t ht m; cases m <;> revert t ht <;> decide) (by decide)
  ⟨h.1, h.2.2.2.1⟩

/-! ## Finished games stay as they are -/

theorem gameKept_refl (rs : Rooms) (k : String) : gameKept rs rs k :=
  fun r' h => ⟨r', h, rfl, rfl⟩

theorem gameKept_trans {rs₁ rs₂ rs₃ : Rooms} {k : String} (h₁ : gameKept rs₁ rs₂ k)
    (h₂ : gameKept rs₂ rs₃ k) : gameKept rs₁ rs₃ k := by
  intro r₃ h
  obtain ⟨r₂, hr₂, hb₂, hg₂⟩ := h₂ r₃ h
  obtain ⟨r₁, hr₁, hb₁, hg₁⟩ := h₁ r₂ hr₂
  exact ⟨r₁, hr₁, hb₂.trans hb₁, hg₂.trans hg₁⟩

theorem gameKept_modify (rs : Rooms) (k' : String) (f : Room → Room)
    (hf : ∀ r, rs.own k' = some r → (f r).board = r.board ∧ (f r).gameOver = r.gameOver)
    (k : String) : gameKept rs (Rooms.modify k' f rs) k := by
  intro r' h
  rw [Rooms.own_modify] at h
  by_cases hk : k = k'
  · subst hk
    rw [if_pos rfl] at h
    cases hr : rs.own k with
    | none => simp [hr] at h
    | some r =>
      rw [hr] at h
      simp only [Option.map_some', Option.some.injEq] at h
      subst h
      exact ⟨r, rfl, (hf r hr).1, (hf r hr).2⟩
  · rw [if_neg hk] at h
    exact ⟨r', h, rfl, rfl⟩

theorem gameKept_delete (rs : Rooms) (k' k : String) : gameKept rs (rs.delete k') k := by
  intro r' h
  rw [Rooms.own_delete] at h
  by_cases hk : k = k'
  · simp [hk] at h
  · rw [if_neg hk] at h
    exact ⟨r', h, rfl, rfl⟩

theorem gameKept_removePlayers (rs : Rooms) (roomId : String) (ps : List String) (k : String) :
    gameKept rs
      (if ps.length = 0 then
          (Rooms.modify roomId (fun room => { room with players := ps }) rs).delete roomId
        else Rooms.modify roomId (fun room => { room with players := ps }) rs) k := by
  have hm : gameKept rs (Rooms.modify roomId (fun room => { room with players := ps }) rs) k :=
    gameKept_modify rs roomId (fun room => { room with players := ps })
      (fun _ _ => ⟨rfl, rfl⟩) k
  split
  · exact gameKept_trans hm (gameKept_delete _ _ _)
  · exact hm

theorem leaveRoom_gameKept (rs : Rooms) (sender roomId k : String) :
    gameKept rs (leaveRoom rs sender roomId).rooms k := by
  unfold leaveRoom
  split
  · exact gameKept_refl rs k
  · exact gameKept_refl rs k
  · exact gameKept_removePlayers rs roomId _ k

theorem disconnectLoop_gameKept (sender : String) (keys : List String) (acc : Outcome)
    (k : String) : gameKept acc.rooms (disconnectLoop sender keys acc).rooms k := by
  induction keys generalizing acc with
  | nil => exact gameKept_refl _ k
  | cons roomId keys ih =>
    rw [disconnectLoop]
    split
    · rename_i r hr
      split
      · exact gameKept_trans (gameKept_removePlayers acc.rooms roomId _ k) (ih _)
      · exact ih acc
    · exact gameKept_refl _ k

theorem disconnect_gameKept (rs : Rooms) (sender k : String) :
    gameKept rs (disconnect rs sender).rooms k :=
  disconnectLoop_gameKept sender _ _ k

theorem getRoomState_rooms (rs : Rooms) (sender roomId : String) :
    (getRoomState rs sender roomId).rooms = rs := by
  unfold getRoomState
  split <;> rfl

theorem joinRoom_gameKept (rs : Rooms) (sender roomId k : String) :
    gameKept rs (joinRoom rs sender roomId).rooms k := by
  unfold joinRoom
  split
  · exact gameKept_refl rs k
  · split
    · exact gameKept_refl rs k
    · exact gameKept_refl rs k
    · rename_i r hr
      split
      · exact gameKept_refl rs k
      · exact gameKept_modify rs roomId _
          (fun r₀ h₀ => by
            have := (Rooms.get_eq_room_iff rs roomId r).1 hr
            rw [this] at h₀
            injection h₀ with h₀
            subst h₀
            exact ⟨rfl, rfl⟩) k

theorem Rooms.own_eq_none_of_not_truthy {rs : Rooms} {k : String}
    (h : (rs.get k).truthy = false) : rs.own k = none := by
  cases ho : rs.own k with
  | none => rfl
  | some r => simp [Rooms.get_of_own ho, Slot.truthy] at h

theorem createRoom_gameKept (rs : Rooms) (sender roomId k : String)
    (hk : (rs.own k).isSome) : gameKept rs (createRoom rs sender roomId).rooms k := by
  unfold createRoom
  split
  · exact gameKept_refl rs k
  · split
    · exact gameKept_refl rs k
    · rename_i ht
      have hnone : rs.own roomId = none :=
        Rooms.own_eq_none_of_not_truthy (by simpa using ht)
      have hne : k ≠ roomId := by
        rintro rfl
        simp [hnone] at hk
      intro r' h
      simp only [Rooms.own_assign, if_neg hne] at h
      exact ⟨r', h, rfl, rfl⟩

theorem makeMove_own_other (rs : Rooms) (sender roomId : String) (index : Int) {k : String}
    (hk : k ≠ roomId) : (makeMove rs sender roomId index).rooms.own k = rs.own k := by
  cases ho : rs.own roomId with
  | none => rw [(makeMove_of_own_none sender index ho).1]
  | some room =>
    by_cases hover : room.gameOver = true
    · rw [makeMove_of_gameOver sender index ho hover]
    · by_cases hcell : room.board.read index = some none
      · rw [makeMove_accepted sender ho (by simpa using hover) hcell]
        cases checkWinner (room.board.write (some room.turn) index) with
        | some w => exact Rooms.own_modify_other _ hk
        | none =>
          simp only
          split
          · exact Rooms.own_modify_other _ hk
          · exact Rooms.own_modify_other _ hk
      · rw [makeMove_of_not_empty sender ho hcell]

theorem makeMove_gameKept_of_gameOver (rs : Rooms) (sender roomId : String) (index : Int)
    (k : String) (r : Room) (hr : rs.own k = some r) (hover : r.gameOver = true) :
    gameKept rs (makeMove rs sender roomId index).rooms k := by
  by_cases hk : k = roomId
  · subst hk
    rw [makeMove_of_gameOver sender index hr hover]
    exact gameKept_refl rs k
  · intro r' h
    rw [makeMove_own_other rs sender roomId index hk] at h
    exact ⟨r', h, rfl, rfl⟩

theorem handle_gameKept_of_gameOver (rs : Rooms) (e : Event) (k : String) (r : Room)
    (hr : rs.own k = some r) (hover : r.gameOver = true) :
    gameKept rs (handle rs e).rooms k := by
  cases e with
  | createRoom s roomId => exact createRoom_gameKept rs s roomId k (by simp [hr])
  | joinRoom s roomId => exact joinRoom_gameKept rs s roomId k
  | makeMove s roomId i => exact makeMove_gameKept_of_gameOver rs s roomId i k r hr hover
  | leaveRoom s roomId => exact leaveRoom_gameKept rs s roomId k
  | getRoomState s roomId =>
    simp only [handle, getRoomState_rooms]
    exact gameKept_refl rs k
  | disconnect s => exact disconnect_gameKept rs s k

theorem run_keeps_finished (es : List Event) (rs : Rooms) (k : String) (r : Room)
    (hr : rs.own k = some r) (hover : r.gameOver = true)
    (hreg : ∀ n, n ≤ es.length → ((run rs (es.take n)).own k).isSome = true) :
    ∃ r', (run rs es).own k = some r' ∧ r'.board = r.board ∧ r'.gameOver = true := by
  induction es generalizing rs r with
  | nil => exact ⟨r, hr, rfl, hover⟩
  | cons e es ih =>
    have h1 := hreg 1 (by simp)
    simp only [List.take_succ_cons, List.take_zero, run] at h1
    obtain ⟨r₁, hr₁⟩ := Option.isSome_iff_exists.1 h1
    obtain ⟨r₀, hr₀, hb, hg⟩ := handle_gameKept_of_gameOver rs e k r hr hover r₁ hr₁
    rw [hr] at hr₀
    injection hr₀ with hr₀
    subst hr₀
    have hover₁ : r₁.gameOver = true := hg.trans hover
    obtain ⟨r', hr', hb', hg'⟩ := ih (handle rs e).rooms r₁ hr₁ hover₁ (by
      intro n hn
      have := hreg (n + 1) (by simpa using hn)
      simpa [run] using this)
    exact ⟨r', hr', hb'.trans hb, hg'⟩

/-- Claim C5: a room that has `gameOver = true` before an event, whichever
event it is and whatever its arguments, and that is still registered after it,
has the same board and still `gameOver = true`; hence along any sequence of
events during which the room stays registered its board never changes. -/
theorem finished_board_frozen (rs : Rooms) (k : String) (r : Room)
    (hr : rs.own k = some r) (hover : r.gameOver = true) :
    (∀ e r', (handle rs e).rooms.own k = some r' → r'.board = r.board ∧ r'.gameOver = true) ∧
    (∀ es, (∀ n, n ≤ es.length → ((run rs (es.take n)).own k).isSome = true) →
      ∃ r', (run rs es).own k = some r' ∧ r'.board = r.board ∧ r'.gameOver = true) := by
  refine ⟨?_, fun es hreg => run_keeps_finished es rs k r hr hover hreg⟩
  intro e r' h
  obtain ⟨r₀, hr₀, hb, hg⟩ := handle_gameKept_of_gameOver rs e k r hr hover r' h
  rw [hr] at hr₀
  injection hr₀ with hr₀
  subst hr₀
  exact ⟨hb, hg.trans hover⟩

/-- Claim C5 on a finished room that a second player joins: the players
change, the board and the flag do not. -/
theorem finished_board_frozen_witness :
    (handle [("r", { players := ["P1"],
                     board := [some Mark.X, some Mark.X, some Mark.X,
                               some Mark.O, some Mark.O, none, none, none, none],
                     turn := Mark.X, gameOver := true })]
        (Event.joinRoom "P2" "r")).rooms.own "r" =
      some { players := ["P1", "P2"],
             board := [some Mark.X, some Mark.X, some Mark.X,
                       some Mark.O, some Mark.O, none, none, none, none],
             turn := Mark.X, gameOver := true } ∧
    (({ players := ["P1", "P2"],
        board := [some Mark.X, some Mark.X, some Mark.X,
                  some Mark.O, some Mark.O, none, none, none, none],
        turn := Mark.X, gameOver := true } : Room).board =
      [some Mark.X, some Mark.X, some Mark.X, some Mark.O, some Mark.O, none, none, none, none] ∧
     ({ players := ["P1", "P2"],
        board := [some Mark.X, some Mark.X, some Mark.X,
                  some Mark.O, some Mark.O, none, none, none, none],
        turn := Mark.X, gameOver := true } : Room).gameOver = true) :=
  ⟨by decide,
   (finished_board_frozen
      [("r", { players := ["P1"],
               board := [some Mark.X, some Mark.X, some Mark.X,
                         some Mark.O, some Mark.O, none, none, none, none],
               turn := Mark.X, gameOver := true })] "r"
      { players := ["P1"],
        board := [some Mark.X, some Mark.X, some Mark.X,
                  some Mark.O, some Mark.O, none, none, none, none],
        turn := Mark.X, gameOver := true } (by decide) (by decide)).1
      (Event.joinRoom "P2" "r") _ (by decide)⟩

/-! ## Nine moves on distinct cells -/

theorem playedInv_newRoom (sender : String) : playedInv (newRoom sender) [] := by
  refine ⟨rfl, Or.inr ⟨rfl, by simp [newRoom], ?_⟩⟩
  intro n hn
  have h : (newRoom sender).board[n]? = some none := by
    simp only [newRoom]
    rw [List.getElem?_replicate]
    simp [hn]
  simp [h]

theorem makeMove_playedInv {rs : Rooms} {roomId : String} {room : Room} {played : List Nat}
    (sender : String) {i : Nat} (hroom : rs.own roomId = some room)
    (hinv : playedInv room played) (hi : i < 9) (hnew : i ∉ played) :
    ∃ room', (makeMove rs sender roomId (i : Int)).rooms.own roomId = some room' ∧
      playedInv room' (i :: played) := by
  obtain ⟨hlen, hcase⟩ := hinv
  rcases hcase with ⟨hover, hfin⟩ | ⟨hopen, hnone, hcells⟩
  · rw [makeMove_of_gameOver sender _ hroom hover]
    exact ⟨room, hroom, hlen, Or.inl ⟨hover, hfin⟩⟩
  · have hcell : room.board.read (i : Int) = some none := (hcells i hi).2 hnew
    have hlen' : (room.board.write (some room.turn) (i : Int)).length = 9 := by
      rw [Board.length_write, hlen]
    rw [makeMove_accepted sender hroom hopen hcell]
    cases hw : checkWinner (room.board.write (some room.turn) (i : Int)) with
    | some w =>
      refine ⟨_, Rooms.own_modify_const_self _ hroom, hlen', Or.inl ⟨rfl, Or.inr ?_⟩⟩
      exact (checkWinner_ne_none_iff _).1 (by simp [hw])
    | none =>
      simp only
      split
      · rename_i hall
        refine ⟨_, Rooms.own_modify_const_self _ hroom, hlen', Or.inl ⟨rfl, Or.inl ?_⟩⟩
        intro hmem
        rw [List.all_eq_true] at hall
        simpa using hall none hmem
      · rename_i hall
        refine ⟨_, Rooms.own_modify_const_self _ hroom, hlen', Or.inr ⟨hopen, ?_, ?_⟩⟩
        · by_contra hmem
          apply hall
          rw [List.all_eq_true]
          intro c hc
          have : c ≠ none := by
            rintro rfl; exact hmem hc
          simpa using this
        · intro n hn
          by_cases hni : n = i
          · subst hni
            have := Board.read_write_self (some room.turn) hcell
            simp only [Board.read] at this
            simp [this]
          · have hne : (n : Int) ≠ (i : Int) := by
              intro h; exact hni (by exact_mod_cast h)
            have := Board.read_write_other room.board (some room.turn) hne
            simp only [Board.read] at this
            rw [this, hcells n hn]
            simp [hni]

theorem run_moves_playedInv (roomId : String) (moves : List (String × Nat)) :
    ∀ (rs : Rooms) (room : Room) (played : List Nat), rs.own roomId = some room →
      playedInv room played → (∀ mv ∈ moves, mv.2 < 9) → (moves.map Prod.snd).Nodup →
      (∀ mv ∈ moves, mv.2 ∉ played) →
      ∃ room' played', (run rs (moves.map
          (fun mv => Event.makeMove mv.1 roomId (mv.2 : Int)))).own roomId = some room' ∧
        (∀ n, n ∈ played' ↔ n ∈ moves.map Prod.snd ∨ n ∈ played) ∧ playedInv room' played' := by
  induction moves with
  | nil =>
    intro rs room played hroom hinv _ _ _
    exact ⟨room, played, hroom, by simp, hinv⟩
  | cons mv moves ih =>
    intro rs room played hroom hinv hlt hnd hnew
    obtain ⟨room₁, hroom₁, hinv₁⟩ :=
      makeMove_playedInv mv.1 hroom hinv (hlt mv (by simp)) (hnew mv (by simp))
    rw [List.map_cons, List.nodup_cons] at hnd
    obtain ⟨room', played', hrun, hmem, hinv'⟩ :=
      ih (makeMove rs mv.1 roomId (mv.2 : Int)).rooms room₁ (mv.2 :: played) hroom₁ hinv₁
        (fun m hm => hlt m (by simp [hm])) hnd.2
        (fun m hm => by
          intro hin
          rcases List.mem_cons.1 hin with h | h
          · exact hnd.1 (h ▸ List.mem_map_of_mem Prod.snd hm)
          · exact hnew m (by simp [hm]) h)
    refine ⟨room', played', ?_, ?_, hinv'⟩
    · simpa [run, handle] using hrun
    · intro n
      rw [hmem n]
      simp only [List.mem_cons, List.map_cons]
      tauto

theorem createRoom_own_of_success {rs : Rooms} {sender roomId : String} {r : Room}
    (h : (createRoom rs sender roomId).ack = some (Ack.success (Slot.room r))) :
    r = newRoom sender ∧ (createRoom rs sender roomId).rooms.own roomId = some (newRoom sender) := by
  unfold createRoom at h ⊢
  split at h
  · simp at h
  · split at h
    · simp at h
    · rename_i h1 h2
      simp only [Option.some.injEq, Ack.success.injEq, Slot.room.injEq] at h
      simp [h1, h2, Rooms.own_assign, h]

/-- Claim C3 as stated fails: the nine moves of `earlyWinMoves` go to the nine
different cells of a freshly created room, and the final board still has empty
cells, because the fifth move wins and the later ones are ignored. -/
theorem nine_moves_board_not_full :
    (earlyWinMoves.map Prod.snd).Perm (List.range 9) ∧
    ∃ r, (run (createRoom [] "P1" "r").rooms
            (earlyWinMoves.map (fun mv => Event.makeMove mv.1 "r" (mv.2 : Int)))).own "r" = some r ∧
      none ∈ r.board :=
  ⟨by decide,
   { players := ["P1"],
     board := [some Mark.X, some Mark.X, some Mark.X, some Mark.O, some Mark.O,
               none, none, none, none],
     turn := Mark.X, gameOver := true }, by decide, by decide⟩

/-- Claim C3, amended: after nine `makeMove` events on a freshly created room
whose indices are a permutation of 0..8, whoever sends them, the room has
`gameOver = true` and a nine-cell board that either has no empty cell or holds a
uniformly filled triple. -/
theorem nine_moves_end_game (rs : Rooms) (creator roomId : String) (moves : List (String × Nat))
    (hfresh : (createRoom rs creator roomId).ack = some (Ack.success (Slot.room (newRoom creator))))
    (hperm : (moves.map Prod.snd).Perm (List.range 9)) :
    ∃ r, (run (createRoom rs creator roomId).rooms
            (moves.map (fun mv => Event.makeMove mv.1 roomId (mv.2 : Int)))).own roomId = some r ∧
      r.gameOver = true ∧ r.board.length = 9 ∧
      (none ∉ r.board ∨ ∃ t ∈ winningCombinations, ∃ m, filledWith r.board m t) := by
  have hown := (createRoom_own_of_success hfresh).2
  have hlt : ∀ mv ∈ moves, mv.2 < 9 := by
    intro mv hmv
    have : mv.2 ∈ List.range 9 := hperm.subset (List.mem_map_of_mem Prod.snd hmv)
    simpa using this
  have hnd : (moves.map Prod.snd).Nodup := hperm.nodup_iff.2 (List.nodup_range 9)
  obtain ⟨room', played', hrun, hmem, hlen, hcase⟩ :=
    run_moves_playedInv roomId moves _ _ [] hown (playedInv_newRoom creator) hlt hnd (by simp)
  refine ⟨room', hrun, ?_, hlen, ?_⟩
  · rcases hcase with ⟨hover, -⟩ | ⟨-, hnone, hcells⟩
    · exact hover
    · exfalso
      obtain ⟨n, hn, hget⟩ := List.mem_iff_getElem.1 hnone
      have hn9 : n < 9 := hlen ▸ hn
      have hnot : n ∉ played' := (hcells n hn9).1 (by simp [List.getElem?_eq_getElem hn, hget])
      exact hnot ((hmem n).2 (Or.inl (hperm.mem_iff.2 (by simpa using hn9))))
  · rcases hcase with ⟨-, hfin⟩ | ⟨-, hnone, hcells⟩
    · exact hfin
    · exfalso
      obtain ⟨n, hn, hget⟩ := List.mem_iff_getElem.1 hnone
      have hn9 : n < 9 := hlen ▸ hn
      have hnot : n ∉ played' := (hcells n hn9).1 (by simp [List.getElem?_eq_getElem hn, hget])
      exact hnot ((hmem n).2 (Or.inl (hperm.mem_iff.2 (by simpa using hn9))))

/-- Claim C3, amended, on `earlyWinMoves`. -/
theorem nine_moves_end_game_witness :
    ∃ r, (run (createRoom [] "P1" "r").rooms
            (earlyWinMoves.map (fun mv => Event.makeMove mv.1 "r" (mv.2 : Int)))).own "r" = some r ∧
      r.gameOver = true ∧ r.board.length = 9 ∧
      (none ∉ r.board ∨ ∃ t ∈ winningCombinations, ∃ m, filledWith r.board m t) :=
  nine_moves_end_game [] "P1" "r" earlyWinMoves (by decide) (by decide)

/-! ## `createRoom` and `joinRoom` -/

/-- An unregistered inherited name reads as a non-room value. -/
theorem Rooms.get_of_own_none_inherited {rs : Rooms} {k : String} (h : rs.own k = none)
    (hk : k ∈ objectPrototypeKeys) : rs.get k = Slot.inherited := by
  simp [Rooms.get, h, hk]

theorem Rooms.get_of_own_none_plain {rs : Rooms} {k : String} (h : rs.own k = none)
    (hk : k ∉ objectPrototypeKeys) : rs.get k = Slot.undefined := by
  simp [Rooms.get, h, hk]

/-- What `createRoom` does, case by case. -/
theorem createRoom_cases (rs : Rooms) (sender roomId : String) :
    (roomId = "" →
      createRoom rs sender roomId =
        { rooms := rs, emits := [], ack := some (Ack.failure "Room ID cannot be empty"),
          thrown := false }) ∧
    (roomId ≠ "" → (rs.own roomId ≠ none ∨ roomId ∈ objectPrototypeKeys) →
      createRoom rs sender roomId =
        { rooms := rs, emits := [], ack := some (Ack.failure "Room already exists"),
          thrown := false }) ∧
    (roomId ≠ "" → rs.own roomId = none → roomId ∉ objectPrototypeKeys →
      (createRoom rs sender roomId).rooms.own roomId = some (newRoom sender) ∧
      (∀ k, k ≠ roomId → (createRoom rs sender roomId).rooms.own k = rs.own k) ∧
      (createRoom rs sender roomId).rooms.length = rs.length + 1 ∧
      (createRoom rs sender roomId).emits =
        [Emit.roomUpdate roomId (newRoom sender), Emit.playerCount roomId 1] ∧
      (createRoom rs sender roomId).ack = some (Ack.success (Slot.room (newRoom sender))) ∧
      (createRoom rs sender roomId).thrown = false) := by
  refine ⟨fun h => by simp [createRoom, h], fun hne h => ?_, fun hne hown hk => ?_⟩
  · have ht : (rs.get roomId).truthy = true := by
      cases ho : rs.own roomId with
      | some r => simp [Rooms.get_of_own ho, Slot.truthy]
      | none =>
        rcases h with h | h
        · exact absurd ho h
        · simp [Rooms.get_of_own_none_inherited ho h, Slot.truthy]
    simp [createRoom, hne, ht]
  · have ht : (rs.get roomId).truthy = false := by
      simp [Rooms.get_of_own_none_plain hown hk, Slot.truthy]
    simp only [createRoom, hne, ht, if_false, Bool.false_eq_true]
    refine ⟨by simp [Rooms.own_assign], fun k hk' => by simp [Rooms.own_assign, hk'],
      Rooms.length_assign_new rs roomId _ hown, ?_, ?_, ?_⟩ <;> first | rfl | trivial

/-- What `joinRoom` does, case by case. -/
theorem joinRoom_cases (rs : Rooms) (sender roomId : String) :
    (roomId = "" →
      joinRoom rs sender roomId =
        { rooms := rs, emits := [], ack := some (Ack.failure "Room ID cannot be empty"),
          thrown := false }) ∧
    (roomId ≠ "" → rs.own roomId = none → roomId ∉ objectPrototypeKeys →
      joinRoom rs sender roomId =
        { rooms := rs, emits := [], ack := some (Ack.failure "Room does not exist"),
          thrown := false }) ∧
    (roomId ≠ "" → rs.own roomId = none → roomId ∈ objectPrototypeKeys →
      joinRoom rs sender roomId = { rooms := rs, emits := [], ack := none, thrown := true }) ∧
    (∀ room, roomId ≠ "" → rs.own roomId = some room → 2 ≤ room.players.length →
      joinRoom rs sender roomId =
        { rooms := rs, emits := [], ack := some (Ack.failure "Room is full"),
          thrown := false }) ∧
    (∀ room, roomId ≠ "" → rs.own roomId = some room → room.players.length < 2 →
      (joinRoom rs sender roomId).rooms.own roomId =
        some { room with players := room.players ++ [sender] } ∧
      (∀ k, k ≠ roomId → (joinRoom rs sender roomId).rooms.own k = rs.own k) ∧
      (joinRoom rs sender roomId).rooms.map Prod.fst = rs.map Prod.fst ∧
      (joinRoom rs sender roomId).emits =
        [Emit.roomUpdate roomId { room with players := room.players ++ [sender] },
         Emit.playerCount roomId (room.players.length + 1)] ++
        (if room.players.length + 1 = 2 then [Emit.opponentJoined roomId] else []) ∧
      (joinRoom rs sender roomId).ack =
        some (Ack.success (Slot.room { room with players := room.players ++ [sender] })) ∧
      (joinRoom rs sender roomId).thrown = false) := by
  refine ⟨fun h => by simp [joinRoom, h], fun hne hown hk => ?_, fun hne hown hk => ?_,
    fun room hne hown hfull => ?_, fun room hne hown hlt => ?_⟩
  · simp [joinRoom, hne, Rooms.get_of_own_none_plain hown hk]
  · simp [joinRoom, hne, Rooms.get_of_own_none_inherited hown hk]
  · simp [joinRoom, hne, Rooms.get_of_own hown, hfull]
  · have hnot : ¬ 2 ≤ room.players.length := by omega
    simp only [joinRoom, hne, Rooms.get_of_own hown, hnot, if_false]
    refine ⟨Rooms.own_modify_const_self _ hown, fun k hk => Rooms.own_modify_other _ hk,
      Rooms.keys_modify _ _ _, ?_, ?_, ?_⟩ <;> first | rfl | trivial | simp

/-- Claim C9 fails on the code at a name inherited from `Object.prototype`:
`"toString"` is non-empty and not registered, yet `createRoom` answers
`"Room already exists"` and creates nothing. -/
theorem createRoom_inherited_name :
    Rooms.own [] "toString" = none ∧
    createRoom [] "P1" "toString" =
      { rooms := [], emits := [], ack := some (Ack.failure "Room already exists"),
        thrown := false } := by
  decide

/-- Claim C10 fails on the code at a name inherited from `Object.prototype`:
`"toString"` is not registered, yet `joinRoom` does not answer
`"Room does not exist"`; it stops with a `TypeError` before any acknowledgment. -/
theorem joinRoom_inherited_name :
    Rooms.own [] "toString" = none ∧
    joinRoom [] "P2" "toString" = { rooms := [], emits := [], ack := none, thrown := true } := by
  decide

/-- Creating `"r1"` twice in a row: the second request is refused. -/
theorem createRoom_twice :
    (createRoom (createRoom [] "P1" "r1").rooms "P1" "r1").ack =
      some (Ack.failure "Room already exists") := by decide

/-! ## The scenario of the spec -/

/-- Claim C2 as stated fails: after the scenario the room is over and `X` has
won, but the board is not the one the claim lists (the second `O` is on cell 5,
where it was played, not on cell 7). -/
theorem winScenario_claimed_board_wrong :
    ¬ ∃ r, (run [] winScenario).own "abc" = some r ∧ r.gameOver = true ∧
        (∃ b, Emit.gameOver "abc" (some Mark.X) b false ∈ runEmits [] winScenario) ∧
        r.board = [some Mark.X, some Mark.X, some Mark.X, none, some Mark.O, none,
                   none, some Mark.O, none] := by
  rintro ⟨r, hr, -, -, hb⟩
  have h : (run [] winScenario).own "abc" =
      some { players := ["P1", "P2"],
             board := [some Mark.X, some Mark.X, some Mark.X, none, some Mark.O, some Mark.O,
                       none, none, none],
             turn := Mark.X, gameOver := true } := by decide
  rw [h] at hr
  injection hr with hr
  subst hr
  exact absurd hb (by decide)

/-- Claim C2, amended: the scenario leaves room `"abc"` with `gameOver = true`
and the board `X X X / _ O O / _ _ _`, and its last broadcast is the `gameOver`
event with winner `X` and that board. -/
theorem winScenario_outcome :
    run [] winScenario =
      [("abc", { players := ["P1", "P2"],
                 board := [some Mark.X, some Mark.X, some Mark.X, none, some Mark.O, some Mark.O,
                           none, none, none],
                 turn := Mark.X, gameOver := true })] ∧
    (runEmits [] winScenario).getLast? =
      some (Emit.gameOver "abc" (some Mark.X)
        [some Mark.X, some Mark.X, some Mark.X, none, some Mark.O, some Mark.O,
         none, none, none] false) ∧
    (runEmits [] winScenario).length = 10 := by
  decide

/-! ## How one event changes a room -/

theorem keptBut_refl (s : String) (rs : Rooms) (k : String) : keptBut s rs rs k :=
  fun r' h => ⟨r', h, rfl, rfl, rfl, Or.inl rfl⟩

theorem filter_ne_idem (s : String) (ps : List String) :
    (ps.filter (fun p => decide (p ≠ s))).filter (fun p => decide (p ≠ s)) =
      ps.filter (fun p => decide (p ≠ s)) := by
  rw [List.filter_filter]
  congr 1
  funext p
  simp

theorem keptBut_trans {s : String} {rs₁ rs₂ rs₃ : Rooms} {k : String}
    (h₁ : keptBut s rs₁ rs₂ k) (h₂ : keptBut s rs₂ rs₃ k) : keptBut s rs₁ rs₃ k := by
  intro r₃ h
  obtain ⟨r₂, hr₂, hb₂, ht₂, hg₂, hp₂⟩ := h₂ r₃ h
  obtain ⟨r₁, hr₁, hb₁, ht₁, hg₁, hp₁⟩ := h₁ r₂ hr₂
  refine ⟨r₁, hr₁, hb₂.trans hb₁, ht₂.trans ht₁, hg₂.trans hg₁, ?_⟩
  rcases hp₂ with hp₂ | ⟨hp₂, hne⟩
  · rw [hp₂]; exact hp₁
  · rcases hp₁ with hp₁ | ⟨hp₁, -⟩
    · right; rw [hp₂, hp₁]; exact ⟨rfl, by rw [← hp₁, ← hp₂]; exact hne⟩
    · right
      refine ⟨?_, hne⟩
      rw [hp₂, hp₁, filter_ne_idem]

/-- The common body of `leaveRoom` and of a `disconnect` step keeps every room
up to the removal of `s`. -/
theorem keptBut_remove (s : String) (rs : Rooms) (roomId : String) (r : Room)
    (hr : rs.own roomId = some r) (k : String) :
    keptBut s rs
      (if (r.players.filter (fun p => decide (p ≠ s))).length = 0 then
          (Rooms.modify roomId (fun room => { room with
            players := r.players.filter (fun p => decide (p ≠ s)) }) rs).delete roomId
        else Rooms.modify roomId (fun room => { room with
            players := r.players.filter (fun p => decide (p ≠ s)) }) rs) k := by
  intro r' h
  by_cases hk : k = roomId
  · subst hk
    split at h
    · simp [Rooms.own_delete] at h
    · rename_i hlen
      rw [Rooms.own_modify, if_pos rfl, hr] at h
      simp only [Option.map_some', Option.some.injEq] at h
      subst h
      exact ⟨r, hr, rfl, rfl, rfl, Or.inr ⟨rfl, fun h0 => hlen (by
        rw [List.length_eq_zero]; exact h0)⟩⟩
  · split at h
    · rw [Rooms.own_delete, if_neg hk, Rooms.own_modify_other _ hk] at h
      exact ⟨r', h, rfl, rfl, rfl, Or.inl rfl⟩
    · rw [Rooms.own_modify_other _ hk] at h
      exact ⟨r', h, rfl, rfl, rfl, Or.inl rfl⟩

theorem leaveRoom_keptBut (rs : Rooms) (sender roomId k : String) :
    keptBut sender rs (leaveRoom rs sender roomId).rooms k := by
  unfold leaveRoom
  split
  · exact keptBut_refl _ rs k
  · exact keptBut_refl _ rs k
  · rename_i r hr
    exact keptBut_remove sender rs roomId r ((Rooms.get_eq_room_iff rs roomId r).1 hr) k

theorem disconnectLoop_keptBut (sender : String) (keys : List String) (acc : Outcome)
    (k : String) : keptBut sender acc.rooms (disconnectLoop sender keys acc).rooms k := by
  induction keys generalizing acc with
  | nil => exact keptBut_refl _ _ k
  | cons roomId keys ih =>
    rw [disconnectLoop]
    split
    · rename_i r hr
      split
      · exact keptBut_trans
          (keptBut_remove sender acc.rooms roomId r
            ((Rooms.get_eq_room_iff acc.rooms roomId r).1 hr) k) (ih _)
      · exact ih acc
    · exact keptBut_refl _ _ k

theorem disconnect_keptBut (rs : Rooms) (sender k : String) :
    keptBut sender rs (disconnect rs sender).rooms k :=
  disconnectLoop_keptBut sender _ _ k

/-- How the room registered under `k` after an event relates to the registry
before it: it was just created, or it kept its game and changed at most its
players, or it took an accepted move. -/
theorem handle_own_cases (rs : Rooms) (e : Event) (k : String) (r' : Room)
    (h : (handle rs e).rooms.own k = some r') :
    (rs.own k = none ∧ ∃ s, e = Event.createRoom s k ∧ r' = newRoom s) ∨
    (∃ r, rs.own k = some r ∧ r'.board = r.board ∧ r'.turn = r.turn ∧
      r'.gameOver = r.gameOver ∧
      (r'.players = r.players ∨
        (∃ s, r.players.length < 2 ∧ r'.players = r.players ++ [s]) ∨
        (∃ s, r'.players = r.players.filter (fun p => decide (p ≠ s)) ∧ r'.players ≠ []))) ∨
    (∃ r s i, e = Event.makeMove s k i ∧ rs.own k = some r ∧ r.gameOver = false ∧
      r.board.read i = some none ∧ r'.players = r.players ∧
      r'.board = r.board.write (some r.turn) i ∧
      ((checkWinner r'.board ≠ none ∧ r'.gameOver = true ∧ r'.turn = r.turn) ∨
       (checkWinner r'.board = none ∧ none ∉ r'.board ∧ r'.gameOver = true ∧
          r'.turn = r.turn) ∨
       (checkWinner r'.board = none ∧ none ∈ r'.board ∧ r'.gameOver = false ∧
          r'.turn = r.turn.toggle))) := by
  have same : ∀ {rs' : Rooms}, rs' = rs → rs'.own k = some r' →
      ∃ r, rs.own k = some r ∧ r'.board = r.board ∧ r'.turn = r.turn ∧
        r'.gameOver = r.gameOver ∧
        (r'.players = r.players ∨
          (∃ s, r.players.length < 2 ∧ r'.players = r.players ++ [s]) ∨
          (∃ s, r'.players = r.players.filter (fun p => decide (p ≠ s)) ∧ r'.players ≠ [])) := by
    intro rs' he h'
    subst he
    exact ⟨r', h', rfl, rfl, rfl, Or.inl rfl⟩
  have ofKept : ∀ {s : String} {rs' : Rooms}, keptBut s rs rs' k → rs'.own k = some r' →
      ∃ r, rs.own k = some r ∧ r'.board = r.board ∧ r'.turn = r.turn ∧
        r'.gameOver = r.gameOver ∧
        (r'.players = r.players ∨
          (∃ s, r.players.length < 2 ∧ r'.players = r.players ++ [s]) ∨
          (∃ s, r'.players = r.players.filter (fun p => decide (p ≠ s)) ∧ r'.players ≠ [])) := by
    intro s rs' hk h'
    obtain ⟨r, hr, hb, ht, hg, hp⟩ := hk r' h'
    refine ⟨r, hr, hb, ht, hg, ?_⟩
    rcases hp with hp | hp
    · exact Or.inl hp
    · exact Or.inr (Or.inr ⟨s, hp⟩)
  cases e with
  | createRoom s roomId =>
    simp only [handle] at h
    by_cases hid : roomId = ""
    · exact Or.inr (Or.inl (same (by simp [createRoom, hid]) h))
    · by_cases ht : (rs.get roomId).truthy = true
      · exact Or.inr (Or.inl (same (by simp [createRoom, hid, ht]) h))
      · have hnone : rs.own roomId = none :=
          Rooms.own_eq_none_of_not_truthy (by simpa using ht)
        have hrooms : (createRoom rs s roomId).rooms = rs.assign roomId (newRoom s) := by
          simp [createRoom, hid, ht]
        rw [hrooms, Rooms.own_assign] at h
        by_cases hk : k = roomId
        · subst hk
          rw [if_pos rfl] at h
          injection h with h
          exact Or.inl ⟨hnone, s, rfl, h.symm⟩
        · rw [if_neg hk] at h
          exact Or.inr (Or.inl ⟨r', h, rfl, rfl, rfl, Or.inl rfl⟩)
  | joinRoom s roomId =>
    simp only [handle] at h
    right; left
    by_cases hid : roomId = ""
    · exact same (by simp [joinRoom, hid]) h
    · cases ho : rs.own roomId with
      | none =>
        refine same ?_ h
        rcases Rooms.get_ne_room_of_own_none ho with hg | hg <;> simp [joinRoom, hid, hg]
      | some room =>
        by_cases hfull : 2 ≤ room.players.length
        · exact same (by simp [joinRoom, hid, Rooms.get_of_own ho, hfull]) h
        · have hrooms : (joinRoom rs s roomId).rooms =
              Rooms.modify roomId (fun _ => { room with players := room.players ++ [s] }) rs := by
            simp [joinRoom, hid, Rooms.get_of_own ho, hfull]
          rw [hrooms] at h
          by_cases hk : k = roomId
          · subst hk
            rw [Rooms.own_modify_const_self _ ho] at h
            injection h with h
            subst h
            exact ⟨room, ho, rfl, rfl, rfl, Or.inr (Or.inl ⟨s, by omega, rfl⟩)⟩
          · rw [Rooms.own_modify_other _ hk] at h
            exact ⟨r', h, rfl, rfl, rfl, Or.inl rfl⟩
  | makeMove s roomId i =>
    simp only [handle] at h
    by_cases hk : k = roomId
    · subst hk
      rcases Option.eq_none_or_eq_some (rs.own k) with ho | ⟨room, ho⟩
      · rw [(makeMove_of_own_none s i ho).1] at h
        exact Or.inr (Or.inl ⟨r', h, rfl, rfl, rfl, Or.inl rfl⟩)
      · by_cases hover : room.gameOver = true
        · rw [makeMove_of_gameOver s i ho hover] at h
          exact Or.inr (Or.inl ⟨r', h, rfl, rfl, rfl, Or.inl rfl⟩)
        · by_cases hcell : room.board.read i = some none
          · have hopen : room.gameOver = false := by simpa using hover
            right; right
            refine ⟨room, s, i, rfl, ho, hopen, hcell, ?_⟩
            rw [makeMove_accepted s ho hopen hcell] at h
            cases hw : checkWinner (room.board.write (some room.turn) i) with
            | some w =>
              rw [hw] at h
              simp only at h
              rw [Rooms.own_modify_const_self _ ho] at h
              injection h with h
              subst h
              exact ⟨rfl, rfl, Or.inl ⟨by simp [hw], rfl, rfl⟩⟩
            | none =>
              rw [hw] at h
              simp only at h
              split at h
              · rename_i hall
                rw [Rooms.own_modify_const_self _ ho] at h
                injection h with h
                subst h
                refine ⟨rfl, rfl, Or.inr (Or.inl ⟨hw, ?_, rfl, rfl⟩)⟩
                intro hmem
                rw [List.all_eq_true] at hall
                simpa using hall none hmem
              · rename_i hall
                rw [Rooms.own_modify_const_self _ ho] at h
                injection h with h
                subst h
                refine ⟨rfl, rfl, Or.inr (Or.inr ⟨hw, ?_, hopen, rfl⟩)⟩
                by_contra hmem
                apply hall
                rw [List.all_eq_true]
                intro c hc
                have : c ≠ none := by
                  rintro rfl; exact hmem hc
                simpa using this
          · rw [makeMove_of_not_empty s ho hcell] at h
            exact Or.inr (Or.inl ⟨r', h, rfl, rfl, rfl, Or.inl rfl⟩)
    · rw [makeMove_own_other rs s roomId i hk] at h
      exact Or.inr (Or.inl ⟨r', h, rfl, rfl, rfl, Or.inl rfl⟩)
  | leaveRoom s roomId =>
    exact Or.inr (Or.inl (ofKept (leaveRoom_keptBut rs s roomId k) h))
  | getRoomState s roomId =>
    simp only [handle, getRoomState_rooms] at h
    exact Or.inr (Or.inl ⟨r', h, rfl, rfl, rfl, Or.inl rfl⟩)
  | disconnect s =>
    exact Or.inr (Or.inl (ofKept (disconnect_keptBut rs s k) h))

/-! ## Reachable registries -/

theorem run_append (rs : Rooms) (es es' : List Event) :
    run rs (es ++ es') = run (run rs es) es' := by
  induction es generalizing rs with
  | nil => rfl
  | cons e es ih => simp [run, ih]

theorem Reachable.empty : Reachable [] := ⟨[], rfl⟩

theorem Reachable.step {rs : Rooms} (h : Reachable rs) (e : Event) :
    Reachable (handle rs e).rooms := by
  obtain ⟨es, rfl⟩ := h
  exact ⟨es ++ [e], by simp [run_append, run]⟩

/-- Induction over the events that lead to a reachable registry. -/
theorem Reachable.induction {P : Rooms → Prop} (h0 : P [])
    (hstep : ∀ rs e, Reachable rs → P rs → P (handle rs e).rooms) :
    ∀ rs, Reachable rs → P rs := by
  have key : ∀ (es : List Event) (rs : Rooms), Reachable rs → P rs → P (run rs es) := by
    intro es
    induction es with
    | nil => intro rs _ h; exact h
    | cons e es ih =>
      intro rs hr h
      exact ih _ (hr.step e) (hstep rs e hr h)
  rintro rs ⟨es, rfl⟩
  exact key es [] Reachable.empty h0

/-- A property of rooms that holds of a new room, survives a change of players
allowed by `hplayers`, and survives an accepted move, holds of every room of
every reachable registry. -/
theorem Reachable.rooms_induction {P : Room → Prop} (hnew : ∀ s, P (newRoom s))
    (hkeep : ∀ r r', P r → r'.board = r.board → r'.turn = r.turn →
      r'.gameOver = r.gameOver →
      (r'.players = r.players ∨
        (∃ s, r.players.length < 2 ∧ r'.players = r.players ++ [s]) ∨
        (∃ s, r'.players = r.players.filter (fun p => decide (p ≠ s)) ∧ r'.players ≠ [])) →
      P r')
    (hmove : ∀ r r' i, P r → r.gameOver = false → r.board.read i = some none →
      r'.players = r.players → r'.board = r.board.write (some r.turn) i →
      ((checkWinner r'.board ≠ none ∧ r'.gameOver = true ∧ r'.turn = r.turn) ∨
       (checkWinner r'.board = none ∧ none ∉ r'.board ∧ r'.gameOver = true ∧
          r'.turn = r.turn) ∨
       (checkWinner r'.board = none ∧ none ∈ r'.board ∧ r'.gameOver = false ∧
          r'.turn = r.turn.toggle)) → P r') :
    ∀ rs, Reachable rs → ∀ k r, rs.own k = some r → P r := by
  intro rs hrs
  refine Reachable.induction (P := fun rs => ∀ k r, rs.own k = some r → P r) ?_ ?_ rs hrs
  · intro k r h
    simp [Rooms.own] at h
  · intro rs e _ ih k r' h
    rcases handle_own_cases rs e k r' h with ⟨-, s, -, rfl⟩ | ⟨r, hr, hb, ht, hg, hp⟩ |
      ⟨r, s, i, -, hr, hopen, hcell, hp, hb, hc⟩
    · exact hnew s
    · exact hkeep r r' (ih k r hr) hb ht hg hp
    · exact hmove r r' i (ih k r hr) hopen hcell hp hb hc

/-! ## Invariants of reachable registries -/

/-- Claim C11: in every reachable registry every registered room has at least
one and at most two players. -/
theorem reachable_players_bounds (rs : Rooms) (hrs : Reachable rs) (k : String) (r : Room)
    (hr : rs.own k = some r) : 1 ≤ r.players.length ∧ r.players.length ≤ 2 := by
  refine Reachable.rooms_induction (P := fun r => 1 ≤ r.players.length ∧ r.players.length ≤ 2)
    ?_ ?_ ?_ rs hrs k r hr
  · intro s
    simp [newRoom]
  · intro r r' ih _ _ _ hp
    rcases hp with hp | ⟨s, hlt, hp⟩ | ⟨s, hp, hne⟩
    · rw [hp]; exact ih
    · rw [hp]; simp only [List.length_append, List.length_singleton]; omega
    · refine ⟨List.length_pos.2 hne, ?_⟩
      rw [hp]
      exact le_trans (List.length_filter_le _ _) ih.2
  · intro r r' i ih _ _ hp _ _
    rw [hp]; exact ih

/-- Claim C11 on the registry left by a creation and a join. -/
theorem reachable_players_bounds_witness :
    1 ≤ ["P1", "P2"].length ∧ ["P1", "P2"].length ≤ 2 :=
  reachable_players_bounds
    (run [] [Event.createRoom "P1" "r", Event.joinRoom "P2" "r"])
    ⟨[Event.createRoom "P1" "r", Event.joinRoom "P2" "r"], rfl⟩ "r"
    { players := ["P1", "P2"], board := List.replicate 9 none, turn := Mark.X,
      gameOver := false } (by decide)

theorem makeMove_accepted_emits {rs : Rooms} {roomId : String} {room : Room} (sender : String)
    {index : Int} (h : rs.own roomId = some room) (hopen : room.gameOver = false)
    (hcell : room.board.read index = some none) :
    (makeMove rs sender roomId index).emits.length = 1 := by
  rw [makeMove_accepted sender h hopen hcell]
  cases checkWinner (room.board.write (some room.turn) index) with
  | some w => rfl
  | none =>
    simp only
    split <;> rfl

theorem Board.exists_read_of_mem {b : Board} {c : Cell} (h : c ∈ b) :
    ∃ i : Int, b.read i = some c := by
  obtain ⟨n, hn, hget⟩ := List.mem_iff_getElem.1 h
  exact ⟨Int.ofNat n, by simp [Board.read, List.getElem?_eq_getElem hn, hget]⟩

/-- The room-level form of claim C20. -/
theorem reachable_terminal_iff {rs : Rooms} (hrs : Reachable rs) {k : String} {r : Room}
    (hr : rs.own k = some r) :
    r.gameOver = true ↔ (checkWinner r.board ≠ none ∨ none ∉ r.board) := by
  refine Reachable.rooms_induction
    (P := fun r => r.gameOver = true ↔ (checkWinner r.board ≠ none ∨ none ∉ r.board))
    ?_ ?_ ?_ rs hrs k r hr
  · intro s
    have h1 : checkWinner (List.replicate 9 none) = none := by decide
    show false = true ↔ (checkWinner (List.replicate 9 none) ≠ none ∨
      (none : Cell) ∉ List.replicate 9 none)
    rw [h1]
    simp
  · intro r r' ih hb _ hg _
    rw [hb, hg]; exact ih
  · intro r r' i _ _ _ _ _ hc
    rcases hc with ⟨hw, hg, -⟩ | ⟨hw, hfull, hg, -⟩ | ⟨hw, hmem, hg, -⟩
    · simp [hg, hw]
    · simp [hg, hfull]
    · simp [hg, hw, hmem]

/-- Claim C20: in every reachable registry a room's `gameOver` flag is true
exactly when its board is terminal (`checkWinner` gives a mark, or no cell is
empty); an open room has no uniformly filled triple and an empty cell, and some
move on it is accepted. -/
theorem reachable_gameOver_iff_terminal (rs : Rooms) (hrs : Reachable rs) (k : String)
    (r : Room) (hr : rs.own k = some r) :
    (r.gameOver = true ↔ (checkWinner r.board ≠ none ∨ none ∉ r.board)) ∧
    (r.gameOver = false →
      (∀ t ∈ winningCombinations, ∀ m, ¬ filledWith r.board m t) ∧ none ∈ r.board ∧
      ∃ i : Int, r.board.read i = some none ∧
        ∀ s, (makeMove rs s k i).emits.length = 1 ∧ (makeMove rs s k i).rooms ≠ rs) := by
  have hiff := reachable_terminal_iff hrs hr
  refine ⟨hiff, fun hopen => ?_⟩
  have hnot : ¬ (checkWinner r.board ≠ none ∨ none ∉ r.board) := by
    rw [← hiff, hopen]; simp
  have hw : checkWinner r.board = none := by
    by_contra h; exact hnot (Or.inl h)
  have hmem : none ∈ r.board := by
    by_contra h; exact hnot (Or.inr h)
  refine ⟨?_, hmem, ?_⟩
  · intro t ht m hf
    exact (checkWinner_ne_none_iff r.board).2 ⟨t, ht, m, hf⟩ hw
  · obtain ⟨i, hi⟩ := Board.exists_read_of_mem hmem
    refine ⟨i, hi, fun s => ⟨makeMove_accepted_emits s hr hopen hi, ?_⟩⟩
    intro heq
    obtain ⟨r', hr', hb⟩ : ∃ r', (makeMove rs s k i).rooms.own k = some r' ∧
        r'.board = r.board.write (some r.turn) i := by
      rw [makeMove_accepted s hr hopen hi]
      cases checkWinner (r.board.write (some r.turn) i) with
      | some w => exact ⟨_, Rooms.own_modify_const_self _ hr, rfl⟩
      | none =>
        simp only
        split
        · exact ⟨_, Rooms.own_modify_const_self _ hr, rfl⟩
        · exact ⟨_, Rooms.own_modify_const_self _ hr, rfl⟩
    rw [heq, hr] at hr'
    injection hr' with hr'
    subst hr'
    have h1 := Board.read_write_self (some r.turn) hi
    rw [← hb, hi] at h1
    simp at h1

/-- Claim C20 on the room left by the scenario of the spec, where `X` has won. -/
theorem reachable_gameOver_iff_terminal_witness :
    (true = true ↔
      (checkWinner [some Mark.X, some Mark.X, some Mark.X, none, some Mark.O, some Mark.O,
                    none, none, none] ≠ none ∨
       none ∉ [some Mark.X, some Mark.X, some Mark.X, none, some Mark.O, some Mark.O,
               none, none, none])) :=
  (reachable_gameOver_iff_terminal (run [] winScenario) ⟨winScenario, rfl⟩ "abc"
    { players := ["P1", "P2"],
      board := [some Mark.X, some Mark.X, some Mark.X, none, some Mark.O, some Mark.O,
                none, none, none],
      turn := Mark.X, gameOver := true } (by decide)).1

/-! ## No ties -/

/-- On a board without a uniformly filled triple, a mark written on an empty
cell can only complete triples of that mark. -/
theorem filledWith_write_mark {b : Board} {i : Int} {m m' : Mark} {t : Nat × Nat × Nat}
    (hcell : b.read i = some none) (hno : ∀ m'', ¬ filledWith b m'' t)
    (h : filledWith (b.write (some m) i) m' t) : m' = m := by
  cases i with
  | negSucc n => simp [Board.read] at hcell
  | ofNat n =>
    simp only [Board.read] at hcell
    have hn : n < b.length := by
      by_contra hge
      rw [List.getElem?_eq_none (by omega)] at hcell
      exact absurd hcell (by simp)
    obtain ⟨x, y, z⟩ := t
    obtain ⟨h1, h2, h3⟩ := h
    simp only [Board.write] at h1 h2 h3
    by_cases hx : n = x
    · subst hx
      simpa [List.getElem?_set, hn] using h1.symm
    · by_cases hy : n = y
      · subst hy
        simpa [List.getElem?_set, hn] using h2.symm
      · by_cases hz : n = z
        · subst hz
          simpa [List.getElem?_set, hn] using h3.symm
        · rw [List.getElem?_set_ne hx] at h1
          rw [List.getElem?_set_ne hy] at h2
          rw [List.getElem?_set_ne hz] at h3
          exact absurd ⟨h1, h2, h3⟩ (hno m')

theorem reachable_terminal_and_no_tie {rs : Rooms} (hrs : Reachable rs) {k : String} {r : Room}
    (hr : rs.own k = some r) :
    (r.gameOver = true ↔ (checkWinner r.board ≠ none ∨ none ∉ r.board)) ∧
    ¬ ((∃ t ∈ winningCombinations, filledWith r.board Mark.X t) ∧
       (∃ t ∈ winningCombinations, filledWith r.board Mark.O t)) := by
  refine Reachable.rooms_induction
    (P := fun r => (r.gameOver = true ↔ (checkWinner r.board ≠ none ∨ none ∉ r.board)) ∧
      ¬ ((∃ t ∈ winningCombinations, filledWith r.board Mark.X t) ∧
         (∃ t ∈ winningCombinations, filledWith r.board Mark.O t)))
    ?_ ?_ ?_ rs hrs k r hr
  · intro s
    have h1 : checkWinner (List.replicate 9 none) = none := by decide
    refine ⟨?_, ?_⟩
    · show false = true ↔ (checkWinner (List.replicate 9 none) ≠ none ∨
        (none : Cell) ∉ List.replicate 9 none)
      rw [h1]
      simp
    · rintro ⟨⟨t, ht, hf⟩, -⟩
      exact (checkWinner_ne_none_iff _).2 ⟨t, ht, Mark.X, hf⟩ h1
  · intro r r' ih hb _ hg _
    rw [hb, hg]; exact ih
  · intro r r' i ih hopen hcell _ hb hc
    have hnot : ¬ (checkWinner r.board ≠ none ∨ none ∉ r.board) := by
      rw [← ih.1, hopen]; simp
    have hno : ∀ t ∈ winningCombinations, ∀ m, ¬ filledWith r.board m t := by
      intro t ht m hf
      exact hnot (Or.inl ((checkWinner_ne_none_iff r.board).2 ⟨t, ht, m, hf⟩))
    refine ⟨?_, ?_⟩
    · rcases hc with ⟨hw, hg, -⟩ | ⟨hw, hfull, hg, -⟩ | ⟨hw, hmem, hg, -⟩
      · simp [hg, hw]
      · simp [hg, hfull]
      · simp [hg, hw, hmem]
    · rintro ⟨⟨t, ht, hf⟩, ⟨t', ht', hf'⟩⟩
      rw [hb] at hf hf'
      have hX := filledWith_write_mark hcell (hno t ht) hf
      have hO := filledWith_write_mark hcell (hno t' ht') hf'
      rw [← hX] at hO
      exact absurd hO (by decide)

/-- Claim C18: in every reachable registry no board holds both a triple of `X`
and a triple of `O`; and when a move on an open room makes `checkWinner` return
a mark, every uniformly filled triple of the new board holds the mark just
placed, so the winner is the room's turn whatever the order in which the eight
triples are enumerated, and that is the winner broadcast. -/
theorem reachable_no_tie (rs : Rooms) (hrs : Reachable rs) (k : String) (r : Room)
    (hr : rs.own k = some r) :
    ¬ ((∃ t ∈ winningCombinations, filledWith r.board Mark.X t) ∧
       (∃ t ∈ winningCombinations, filledWith r.board Mark.O t)) ∧
    (r.gameOver = false → ∀ (s : String) (i : Int), r.board.read i = some none →
      ∀ w, checkWinner (r.board.write (some r.turn) i) = some w →
        w = r.turn ∧
        (∀ t ∈ winningCombinations, ∀ m,
          filledWith (r.board.write (some r.turn) i) m t → m = r.turn) ∧
        (∀ l : List (Nat × Nat × Nat), l.Perm winningCombinations →
          checkWinnerLoop (r.board.write (some r.turn) i) l = some r.turn) ∧
        (makeMove rs s k i).emits =
          [Emit.gameOver k (some r.turn) (r.board.write (some r.turn) i) false]) := by
  obtain ⟨hiff, htie⟩ := reachable_terminal_and_no_tie hrs hr
  refine ⟨htie, fun hopen s i hcell w hw => ?_⟩
  have hnot : ¬ (checkWinner r.board ≠ none ∨ none ∉ r.board) := by
    rw [← hiff, hopen]; simp
  have hno : ∀ t ∈ winningCombinations, ∀ m, ¬ filledWith r.board m t := by
    intro t ht m hf
    exact hnot (Or.inl ((checkWinner_ne_none_iff r.board).2 ⟨t, ht, m, hf⟩))
  have hall : ∀ t ∈ winningCombinations, ∀ m,
      filledWith (r.board.write (some r.turn) i) m t → m = r.turn :=
    fun t ht m hf => filledWith_write_mark hcell (hno t ht) hf
  have hwin : w = r.turn := by
    obtain ⟨pre, t, post, hl, hf, -⟩ := (checkWinnerLoop_eq_some _ w _).1 hw
    exact hall t (by rw [hl]; simp) w hf
  refine ⟨hwin, hall, ?_, ?_⟩
  · intro l hl
    obtain ⟨t, ht, m, hf⟩ := (checkWinner_ne_none_iff _).1 (by rw [hw]; simp)
    have hne : checkWinnerLoop (r.board.write (some r.turn) i) l ≠ none :=
      (checkWinnerLoop_ne_none _ l).2 ⟨t, hl.mem_iff.2 ht, m, hf⟩
    cases hc : checkWinnerLoop (r.board.write (some r.turn) i) l with
    | none => exact absurd hc hne
    | some w' =>
      obtain ⟨pre, t', post, hl', hf', -⟩ := (checkWinnerLoop_eq_some _ w' l).1 hc
      have ht' : t' ∈ winningCombinations := hl.mem_iff.1 (by rw [hl']; simp)
      rw [hall t' ht' w' hf']
  · rw [makeMove_accepted s hr hopen hcell, hw, hwin]

/-- Claim C18 on the last move of the scenario of the spec. -/
theorem reachable_no_tie_witness :
    (makeMove (run [] (winScenario.take 6)) "P1" "abc" 2).emits =
      [Emit.gameOver "abc" (some Mark.X)
        [some Mark.X, some Mark.X, some Mark.X, none, some Mark.O, some Mark.O,
         none, none, none] false] :=
  ((reachable_no_tie (run [] (winScenario.take 6)) ⟨winScenario.take 6, rfl⟩ "abc"
    { players := ["P1", "P2"],
      board := [some Mark.X, some Mark.X, none, none, some Mark.O, some Mark.O,
                none, none, none],
      turn := Mark.X, gameOver := false } (by decide)).2 rfl "P1" 2 (by decide)
      Mark.X (by decide)).2.2.2

/-! ## Alternation of the marks -/

theorem count_set_empty {b : Board} {n : Nat} (m m' : Mark) (h : b[n]? = some none) :
    (b.set n (some m)).count (some m') = b.count (some m') + (if m = m' then 1 else 0) := by
  induction b generalizing n with
  | nil => simp at h
  | cons c rest ih =>
    cases n with
    | zero =>
      simp only [List.getElem?_cons_zero, Option.some.injEq] at h
      subst h
      by_cases hm : m = m'
      · subst hm; simp [List.count_cons]
      · simp [List.count_cons, hm]
    | succ n =>
      simp only [List.getElem?_cons_succ] at h
      simp only [List.set_cons_succ, List.count_cons, ih h]
      omega

theorem Board.marks_write {b : Board} {i : Int} (m m' : Mark) (h : b.read i = some none) :
    (b.write (some m) i).marks m' = b.marks m' + (if m = m' then 1 else 0) := by
  cases i with
  | negSucc n => simp [Board.read] at h
  | ofNat n => exact count_set_empty m m' h

theorem reachable_marks_turn {rs : Rooms} (hrs : Reachable rs) {k : String} {r : Room}
    (hr : rs.own k = some r) :
    (r.board.marks Mark.X = r.board.marks Mark.O ∨
      r.board.marks Mark.X = r.board.marks Mark.O + 1) ∧
    (r.gameOver = false →
      (r.turn = Mark.X ∧ r.board.marks Mark.X = r.board.marks Mark.O) ∨
      (r.turn = Mark.O ∧ r.board.marks Mark.X = r.board.marks Mark.O + 1)) := by
  refine Reachable.rooms_induction
    (P := fun r =>
      (r.board.marks Mark.X = r.board.marks Mark.O ∨
        r.board.marks Mark.X = r.board.marks Mark.O + 1) ∧
      (r.gameOver = false →
        (r.turn = Mark.X ∧ r.board.marks Mark.X = r.board.marks Mark.O) ∨
        (r.turn = Mark.O ∧ r.board.marks Mark.X = r.board.marks Mark.O + 1)))
    ?_ ?_ ?_ rs hrs k r hr
  · intro s
    have h0 : Board.marks (List.replicate 9 none) Mark.X =
        Board.marks (List.replicate 9 none) Mark.O := by decide
    exact ⟨Or.inl h0, fun _ => Or.inl ⟨rfl, h0⟩⟩
  · intro r r' ih hb ht hg _
    rw [hb, ht, hg]; exact ih
  · intro r r' i ih hopen hcell _ hb hc
    have hX := Board.marks_write r.turn Mark.X hcell
    have hO := Board.marks_write r.turn Mark.O hcell
    rw [← hb] at hX hO
    rcases ih.2 hopen with ⟨ht, hcnt⟩ | ⟨ht, hcnt⟩
    · rw [ht] at hX hO
      simp only [if_true, reduceCtorEq, if_false, Nat.add_zero] at hX hO
      refine ⟨Or.inr (by omega), fun hg => ?_⟩
      rcases hc with ⟨-, hg', -⟩ | ⟨-, -, hg', -⟩ | ⟨-, -, -, ht'⟩
      · rw [hg'] at hg; exact absurd hg (by simp)
      · rw [hg'] at hg; exact absurd hg (by simp)
      · right
        exact ⟨by rw [ht', ht]; rfl, by omega⟩
    · rw [ht] at hX hO
      simp only [if_true, reduceCtorEq, if_false, Nat.add_zero] at hX hO
      refine ⟨Or.inl (by omega), fun hg => ?_⟩
      rcases hc with ⟨-, hg', -⟩ | ⟨-, -, hg', -⟩ | ⟨-, -, -, ht'⟩
      · rw [hg'] at hg; exact absurd hg (by simp)
      · rw [hg'] at hg; exact absurd hg (by simp)
      · left
        exact ⟨by rw [ht', ht]; rfl, by omega⟩

/-- Claim C12: in every reachable registry each board has as many `X` as `O`
or one `X` more; while the room is open, `turn` is `X` exactly when the counts
are equal and `O` exactly when `X` leads by one; and an event changes the
`turn` of a room only if it is a move on that room, open, on an empty cell. -/
theorem reachable_turn_alternates (rs : Rooms) (hrs : Reachable rs) (k : String) (r : Room)
    (hr : rs.own k = some r) :
    (r.board.marks Mark.X = r.board.marks Mark.O ∨
      r.board.marks Mark.X = r.board.marks Mark.O + 1) ∧
    (r.gameOver = false →
      (r.turn = Mark.X ↔ r.board.marks Mark.X = r.board.marks Mark.O) ∧
      (r.turn = Mark.O ↔ r.board.marks Mark.X = r.board.marks Mark.O + 1)) ∧
    (∀ e r', (handle rs e).rooms.own k = some r' → r'.turn ≠ r.turn →
      ∃ s i, e = Event.makeMove s k i ∧ r.gameOver = false ∧ r.board.read i = some none ∧
        r'.board = r.board.write (some r.turn) i ∧ r'.turn = r.turn.toggle) := by
  obtain ⟨hcnt, hturn⟩ := reachable_marks_turn hrs hr
  refine ⟨hcnt, fun hopen => ?_, ?_⟩
  · rcases hturn hopen with ⟨ht, hc⟩ | ⟨ht, hc⟩
    · refine ⟨⟨fun _ => hc, fun _ => ht⟩, ⟨fun h => ?_, fun h => ?_⟩⟩
      · rw [ht] at h; exact absurd h (by decide)
      · omega
    · refine ⟨⟨fun h => ?_, fun h => ?_⟩, ⟨fun _ => hc, fun _ => ht⟩⟩
      · rw [ht] at h; exact absurd h (by decide)
      · omega
  · intro e r' h hne
    rcases handle_own_cases rs e k r' h with ⟨hnone, -⟩ | ⟨r₀, hr₀, -, ht, -⟩ |
      ⟨r₀, s, i, he, hr₀, hopen, hcell, -, hb, hc⟩
    · rw [hr] at hnone; exact absurd hnone (by simp)
    · rw [hr] at hr₀
      injection hr₀ with hr₀
      subst hr₀
      exact absurd ht hne
    · rw [hr] at hr₀
      injection hr₀ with hr₀
      subst hr₀
      refine ⟨s, i, he, hopen, hcell, hb, ?_⟩
      rcases hc with ⟨-, -, ht⟩ | ⟨-, -, -, ht⟩ | ⟨-, -, -, ht⟩
      · exact absurd ht hne
      · exact absurd ht hne
      · exact ht

/-- Claim C12 on the registry left by the first three moves of the scenario
of the spec: two `X`, one `O`, and it is `O` to move. -/
theorem reachable_turn_alternates_witness :
    (Mark.O = Mark.X ↔
      Board.marks [some Mark.X, some Mark.X, none, none, some Mark.O, none, none, none, none]
          Mark.X =
        Board.marks [some Mark.X, some Mark.X, none, none, some Mark.O, none, none, none, none]
          Mark.O) ∧
    (Mark.O = Mark.O ↔
      Board.marks [some Mark.X, some Mark.X, none, none, some Mark.O, none, none, none, none]
          Mark.X =
        Board.marks [some Mark.X, some Mark.X, none, none, some Mark.O, none, none, none, none]
          Mark.O + 1) :=
  (reachable_turn_alternates (run [] (winScenario.take 5)) ⟨winScenario.take 5, rfl⟩ "abc"
    { players := ["P1", "P2"],
      board := [some Mark.X, some Mark.X, none, none, some Mark.O, none, none, none, none],
      turn := Mark.O, gameOver := false } (by decide)).2.1 rfl

/-! ## `makeMove` and its sender -/

/-- Claim C19: `makeMove` gives the same outcome whoever sends it; so a move
is accepted from a connection that is not among the room's players, in a room
with a single player, and from the second player while the turn is `X`. -/
theorem makeMove_sender_irrelevant :
    (∀ (rs : Rooms) (c₁ c₂ roomId : String) (index : Int),
      makeMove rs c₁ roomId index = makeMove rs c₂ roomId index) ∧
    makeMove [("r", newRoom "P1")] "stranger" "r" 0 =
      { rooms := [("r", { players := ["P1"],
                          board := [some Mark.X, none, none, none, none, none, none, none, none],
                          turn := Mark.O, gameOver := false })],
        emits := [Emit.roomUpdate "r"
                   { players := ["P1"],
                     board := [some Mark.X, none, none, none, none, none, none, none, none],
                     turn := Mark.O, gameOver := false }],
        ack := none, thrown := false } ∧
    (makeMove (run [] [Event.createRoom "P1" "r", Event.joinRoom "P2" "r"]) "P2" "r" 0).rooms =
      [("r", { players := ["P1", "P2"],
               board := [some Mark.X, none, none, none, none, none, none, none, none],
               turn := Mark.O, gameOver := false })] :=
  ⟨fun _ _ _ _ _ => rfl, by decide, by decide⟩

/-! ## `leaveRoom` -/

theorem leaveRoom_of_own_none {rs : Rooms} {roomId : String} (sender : String)
    (h : rs.own roomId = none) :
    (leaveRoom rs sender roomId).rooms = rs ∧ (leaveRoom rs sender roomId).emits = [] := by
  rcases Rooms.get_ne_room_of_own_none h with hg | hg <;> simp [leaveRoom, hg]

theorem leaveRoom_of_own {rs : Rooms} {roomId : String} {room : Room} (sender : String)
    (h : rs.own roomId = some room) :
    leaveRoom rs sender roomId =
      { rooms :=
          if (playersWithout sender room).length = 0 then
            (Rooms.modify roomId
              (fun r => { r with players := playersWithout sender room }) rs).delete roomId
          else Rooms.modify roomId (fun r => { r with players := playersWithout sender room }) rs,
        emits := [Emit.playerCount roomId (playersWithout sender room).length,
                  Emit.opponentLeft roomId],
        ack := none, thrown := false } := by
  simp only [leaveRoom, Rooms.get_of_own h, playersWithout]

theorem not_mem_playersWithout (c : String) (r : Room) : c ∉ playersWithout c r := by
  simp [playersWithout, List.mem_filter]

/-- Claim C14 as stated fails: when the only player of a room leaves, the room
is deleted, and the `playerCount` (with count 0) and `opponentLeft` broadcasts
are emitted all the same. -/
theorem leaveRoom_last_player_still_emits :
    (createRoom [] "P1" "r").rooms.own "r" = some (newRoom "P1") ∧
    (leaveRoom (createRoom [] "P1" "r").rooms "P1" "r").rooms = [] ∧
    (leaveRoom (createRoom [] "P1" "r").rooms "P1" "r").emits =
      [Emit.playerCount "r" 0, Emit.opponentLeft "r"] := by
  decide

/-- Claim C14, amended: `leaveRoom(r)` by `c` on a registered room filters `c`
out of its players and deletes the room when nobody is left; whether or not the
room is deleted, it emits exactly one `playerCount` broadcast with the updated
count and one `opponentLeft` broadcast, and returns normally; every other room
is unchanged; on a name that is not registered and is not inherited from
`Object.prototype` it changes nothing, emits nothing and returns normally. -/
theorem leaveRoom_spec (rs : Rooms) (c roomId : String) :
    (rs.own roomId = none → roomId ∉ objectPrototypeKeys →
      leaveRoom rs c roomId = { rooms := rs, emits := [], ack := none, thrown := false }) ∧
    (∀ room, rs.own roomId = some room →
      (leaveRoom rs c roomId).rooms.own roomId =
        (if (playersWithout c room).length = 0 then none
         else some { room with players := playersWithout c room }) ∧
      c ∉ playersWithout c room ∧
      (∀ p, p ≠ c → (p ∈ playersWithout c room ↔ p ∈ room.players)) ∧
      (∀ k, k ≠ roomId → (leaveRoom rs c roomId).rooms.own k = rs.own k) ∧
      (leaveRoom rs c roomId).emits =
        [Emit.playerCount roomId (playersWithout c room).length, Emit.opponentLeft roomId] ∧
      (leaveRoom rs c roomId).thrown = false) := by
  refine ⟨fun h hk => by simp [leaveRoom, Rooms.get, h, hk], fun room hroom => ?_⟩
  rw [leaveRoom_of_own c hroom]
  refine ⟨?_, not_mem_playersWithout c room, ?_, ?_, rfl, rfl⟩
  · simp only
    split
    · simp [Rooms.own_delete]
    · simp [Rooms.own_modify, hroom]
  · intro p hp
    simp [playersWithout, List.mem_filter, hp]
  · intro k hk
    simp only
    split
    · rw [Rooms.own_delete, if_neg hk, Rooms.own_modify_other _ hk]
    · rw [Rooms.own_modify_other _ hk]

/-- Claim C14, amended, on a room of two players that the second one leaves. -/
theorem leaveRoom_spec_witness :
    (leaveRoom [("r", { players := ["P1", "P2"], board := List.replicate 9 none,
                        turn := Mark.X, gameOver := false })] "P2" "r").emits =
      [Emit.playerCount "r" 1, Emit.opponentLeft "r"] :=
  ((leaveRoom_spec [("r", { players := ["P1", "P2"], board := List.replicate 9 none,
                            turn := Mark.X, gameOver := false })] "P2" "r").2
    { players := ["P1", "P2"], board := List.replicate 9 none, turn := Mark.X,
      gameOver := false } (by decide)).2.2.2.2.1

theorem Rooms.modify_modify (k : String) (f g : Room → Room) (rs : Rooms) :
    Rooms.modify k f (Rooms.modify k g rs) = Rooms.modify k (fun r => f (g r)) rs := by
  induction rs with
  | nil => rfl
  | cons e rest ih =>
    obtain ⟨k₀, r₀⟩ := e
    by_cases h₀ : k₀ = k <;> simp [Rooms.modify, h₀, ih]

theorem playersWithout_idem (c : String) (room : Room) (r : Room) :
    playersWithout c { r with players := playersWithout c room } = playersWithout c room := by
  simp only [playersWithout]
  exact filter_ne_idem c room.players

/-- Claim C15: applying `leaveRoom(roomId)` by `c` twice leaves the same
registry as applying it once, and after one application the room, if still
registered, does not list `c` among its players. -/
theorem leaveRoom_idempotent (rs : Rooms) (c roomId : String) :
    (leaveRoom (leaveRoom rs c roomId).rooms c roomId).rooms = (leaveRoom rs c roomId).rooms ∧
    (∀ r', (leaveRoom rs c roomId).rooms.own roomId = some r' → c ∉ r'.players) := by
  rcases Option.eq_none_or_eq_some (rs.own roomId) with ho | ⟨room, ho⟩
  · rw [(leaveRoom_of_own_none c ho).1, (leaveRoom_of_own_none c ho).1]
    exact ⟨rfl, fun r' h => by rw [ho] at h; exact absurd h (by simp)⟩
  · rw [leaveRoom_of_own c ho]
    simp only
    split
    · have hnone : ((Rooms.modify roomId
          (fun r => { r with players := playersWithout c room }) rs).delete roomId).own roomId
          = none := by simp [Rooms.own_delete]
      exact ⟨(leaveRoom_of_own_none c hnone).1, fun r' h => by
        rw [hnone] at h; exact absurd h (by simp)⟩
    · rename_i hlen
      have hown : (Rooms.modify roomId
          (fun r => { r with players := playersWithout c room }) rs).own roomId
          = some { room with players := playersWithout c room } := by
        simp [Rooms.own_modify, ho]
      refine ⟨?_, fun r' h => ?_⟩
      · rw [leaveRoom_of_own c hown]
        simp only [playersWithout_idem, if_neg hlen, Rooms.modify_modify]
      · rw [hown] at h
        injection h with h
        subst h
        exact not_mem_playersWithout c room

/-! ## `getRoomState` -/

/-- Claim C13 fails on the code at a name inherited from `Object.prototype`:
`"toString"` is not registered, yet `getRoomState` acknowledges success, with
the inherited value in place of a room. -/
theorem getRoomState_inherited_name :
    Rooms.own [] "toString" = none ∧
    getRoomState [] "P1" "toString" =
      { rooms := [], emits := [], ack := some (Ack.success Slot.inherited),
        thrown := false } := by
  decide

/-- What `getRoomState` does, case by case. -/
theorem getRoomState_cases (rs : Rooms) (sender roomId : String) :
    (getRoomState rs sender roomId).rooms = rs ∧
    (getRoomState rs sender roomId).emits = [] ∧
    (∀ room, rs.own roomId = some room →
      (getRoomState rs sender roomId).ack = some (Ack.success (Slot.room room))) ∧
    (rs.own roomId = none → roomId ∉ objectPrototypeKeys →
      (getRoomState rs sender roomId).ack = some (Ack.failure "Room not found")) ∧
    (rs.own roomId = none → roomId ∈ objectPrototypeKeys →
      (getRoomState rs sender roomId).ack = some (Ack.success Slot.inherited)) := by
  refine ⟨getRoomState_rooms rs sender roomId, ?_, fun room h => ?_, fun h hk => ?_,
    fun h hk => ?_⟩
  · unfold getRoomState; split <;> rfl
  · simp [getRoomState, Rooms.get_of_own h, Slot.truthy]
  · simp [getRoomState, Rooms.get_of_own_none_plain h hk, Slot.truthy]
  · simp [getRoomState, Rooms.get_of_own_none_inherited h hk, Slot.truthy]

/-- When the only player of a room leaves it, the room is gone, and a later
`getRoomState` answers `"Room not found"` unless the name is an inherited one. -/
theorem leaveRoom_last_then_getRoomState (rs : Rooms) (c roomId : String) (room : Room)
    (hroom : rs.own roomId = some room) (honly : ∀ p ∈ room.players, p = c)
    (hk : roomId ∉ objectPrototypeKeys) (sender : String) :
    (leaveRoom rs c roomId).rooms.own roomId = none ∧
    (getRoomState (leaveRoom rs c roomId).rooms sender roomId).ack =
      some (Ack.failure "Room not found") := by
  have hempty : (playersWithout c room).length = 0 := by
    rw [List.length_eq_zero]
    simp only [playersWithout, List.filter_eq_nil_iff]
    intro p hp
    simp [honly p hp]
  have hnone : (leaveRoom rs c roomId).rooms.own roomId = none := by
    rw [leaveRoom_of_own c hroom]
    simp [hempty, Rooms.own_delete]
  exact ⟨hnone, (getRoomState_cases _ sender roomId).2.2.2.1 hnone hk⟩

/-! ## `disconnect` -/

theorem Rooms.own_isSome_of_mem_keys {rs : Rooms} {k : String} (h : k ∈ rs.map Prod.fst) :
    (rs.own k).isSome = true := by
  induction rs with
  | nil => simp at h
  | cons e rest ih =>
    obtain ⟨k₀, r₀⟩ := e
    by_cases h₀ : k₀ = k
    · simp [Rooms.own, h₀]
    · have : k ∈ rest.map Prod.fst := by
        simp only [List.map_cons, List.mem_cons] at h
        rcases h with h | h
        · exact absurd h.symm h₀
        · exact h
      simp [Rooms.own, h₀, ih this]

theorem Rooms.own_eq_none_of_not_mem_keys {rs : Rooms} {k : String}
    (h : k ∉ rs.map Prod.fst) : rs.own k = none := by
  induction rs with
  | nil => rfl
  | cons e rest ih =>
    obtain ⟨k₀, r₀⟩ := e
    simp only [List.map_cons, List.mem_cons, not_or] at h
    have h₀ : ¬ k₀ = k := fun h' => h.1 h'.symm
    simp [Rooms.own, h₀, ih h.2]

/-- One `forEach` step of `disconnect` on a registered room that lists the
sender is `leaveRoom` on that room. -/
theorem disconnectLoop_cons_listed {sender roomId : String} {keys : List String}
    {acc : Outcome} {r : Room} (hr : acc.rooms.own roomId = some r) (hc : sender ∈ r.players) :
    disconnectLoop sender (roomId :: keys) acc =
      disconnectLoop sender keys
        { acc with rooms := (leaveRoom acc.rooms sender roomId).rooms,
                   emits := acc.emits ++ (leaveRoom acc.rooms sender roomId).emits } := by
  rw [disconnectLoop]
  simp only [Rooms.get_of_own hr, hc, if_true, leaveRoom_of_own sender hr, playersWithout]

theorem disconnectLoop_cons_unlisted {sender roomId : String} {keys : List String}
    {acc : Outcome} {r : Room} (hr : acc.rooms.own roomId = some r) (hc : sender ∉ r.players) :
    disconnectLoop sender (roomId :: keys) acc = disconnectLoop sender keys acc := by
  rw [disconnectLoop]
  simp only [Rooms.get_of_own hr, hc, if_false]

theorem leaveRoom_own_other (rs : Rooms) (sender roomId : String) {k : String}
    (hk : k ≠ roomId) : (leaveRoom rs sender roomId).rooms.own k = rs.own k := by
  rcases Option.eq_none_or_eq_some (rs.own roomId) with ho | ⟨room, ho⟩
  · rw [(leaveRoom_of_own_none sender ho).1]
  · rw [leaveRoom_of_own sender ho]
    simp only
    split
    · rw [Rooms.own_delete, if_neg hk, Rooms.own_modify_other _ hk]
    · rw [Rooms.own_modify_other _ hk]

theorem leaveRoom_own_self {rs : Rooms} {roomId : String} {room : Room} (sender : String)
    (h : rs.own roomId = some room) (hc : sender ∈ room.players) :
    (leaveRoom rs sender roomId).rooms.own roomId = afterDisconnect sender room := by
  rw [leaveRoom_of_own sender h]
  simp only [afterDisconnect, hc, if_true]
  split
  · simp [Rooms.own_delete]
  · simp [Rooms.own_modify, h]

theorem leaveRoom_emits_of_own {rs : Rooms} {roomId : String} {room : Room} (sender : String)
    (h : rs.own roomId = some room) :
    (leaveRoom rs sender roomId).emits = removalEmits sender rs roomId := by
  rw [leaveRoom_of_own sender h]
  simp [removalEmits, h]

theorem Rooms.lists_congr {rs rs' : Rooms} {c k : String} (h : rs'.own k = rs.own k) :
    rs'.lists c k = rs.lists c k := by
  simp [Rooms.lists, h]

/-- The `forEach` of `disconnect` over distinct registered keys is `leaveRoom`
applied in turn to those of them that list the sender. -/
theorem disconnectLoop_eq_leaveEach (c : String) (keys : List String) :
    ∀ acc : Outcome, keys.Nodup → (∀ k ∈ keys, (acc.rooms.own k).isSome = true) →
      disconnectLoop c keys acc =
        { acc with
          rooms := (leaveEach c (keys.filter (acc.rooms.lists c)) acc.rooms).1,
          emits := acc.emits ++ (leaveEach c (keys.filter (acc.rooms.lists c)) acc.rooms).2 } := by
  induction keys with
  | nil =>
    intro acc _ _
    simp [disconnectLoop, leaveEach]
  | cons k keys ih =>
    intro acc hnd hreg
    rw [List.nodup_cons] at hnd
    obtain ⟨r, hr⟩ := Option.isSome_iff_exists.1 (hreg k (by simp))
    by_cases hc : c ∈ r.players
    · have hl : acc.rooms.lists c k = true := by simp [Rooms.lists, hr, hc]
      have hsame : ∀ k' ∈ keys,
          (leaveRoom acc.rooms c k).rooms.own k' = acc.rooms.own k' := by
        intro k' hk'
        exact leaveRoom_own_other _ _ _ (fun h => hnd.1 (h ▸ hk'))
      have hfilter : keys.filter ((leaveRoom acc.rooms c k).rooms.lists c) =
          keys.filter (acc.rooms.lists c) :=
        List.filter_congr (fun k' hk' => Rooms.lists_congr (hsame k' hk'))
      rw [disconnectLoop_cons_listed hr hc, ih _ hnd.2 (by
        intro k' hk'
        simp only
        rw [hsame k' hk']
        exact hreg k' (by simp [hk'])), List.filter_cons_of_pos hl]
      simp only [hfilter, leaveEach, List.append_assoc]
    · have hl : ¬ acc.rooms.lists c k = true := by simp [Rooms.lists, hr, hc]
      rw [disconnectLoop_cons_unlisted hr hc, ih acc hnd.2 (fun k' hk' => hreg k' (by simp [hk'])),
        List.filter_cons_of_neg hl]

/-- The registry and the broadcasts left by `leaveRoom` applied in turn to
distinct registered rooms that list `c`. -/
theorem leaveEach_spec (c : String) (keys : List String) :
    ∀ rs : Rooms, keys.Nodup → (∀ k ∈ keys, rs.lists c k = true) →
      (∀ k, (leaveEach c keys rs).1.own k =
        if k ∈ keys then (rs.own k).bind (afterDisconnect c) else rs.own k) ∧
      (leaveEach c keys rs).2 = keys.flatMap (removalEmits c rs) := by
  induction keys with
  | nil =>
    intro rs _ _
    simp [leaveEach]
  | cons k₀ keys ih =>
    intro rs hnd hl
    rw [List.nodup_cons] at hnd
    have hl₀ := hl k₀ (by simp)
    obtain ⟨r₀, hr₀, hc₀⟩ : ∃ r, rs.own k₀ = some r ∧ c ∈ r.players := by
      simp only [Rooms.lists] at hl₀
      split at hl₀
      · rename_i r hr; exact ⟨r, hr, by simpa using hl₀⟩
      · simp at hl₀
    have hsame : ∀ k' ∈ keys, (leaveRoom rs c k₀).rooms.own k' = rs.own k' := by
      intro k' hk'
      exact leaveRoom_own_other _ _ _ (fun h => hnd.1 (h ▸ hk'))
    obtain ⟨ihown, ihemits⟩ := ih (leaveRoom rs c k₀).rooms hnd.2 (by
      intro k' hk'
      rw [Rooms.lists_congr (hsame k' hk')]
      exact hl k' (by simp [hk']))
    refine ⟨fun k => ?_, ?_⟩
    · simp only [leaveEach]
      rw [ihown k]
      by_cases hk : k ∈ keys
      · have hne : k ≠ k₀ := fun h => hnd.1 (h ▸ hk)
        simp [hk, hsame k hk]
      · by_cases hk₀ : k = k₀
        · subst hk₀
          simp [hk, leaveRoom_own_self c hr₀ hc₀, hr₀]
        · simp [hk, hk₀, leaveRoom_own_other _ _ _ hk₀]
    · simp only [leaveEach, ihemits, List.flatMap_cons, leaveRoom_emits_of_own c hr₀]
      congr 1
      apply List.flatMap_congr
      intro k' hk'
      simp [removalEmits, hsame k' hk']

theorem mem_roomsContaining {rs : Rooms} {c k : String} :
    k ∈ roomsContaining rs c ↔ ∃ r, rs.own k = some r ∧ c ∈ r.players := by
  simp only [roomsContaining, List.mem_filter]
  constructor
  · rintro ⟨-, hl⟩
    simp only [Rooms.lists] at hl
    split at hl
    · rename_i r hr; exact ⟨r, hr, by simpa using hl⟩
    · simp at hl
  · rintro ⟨r, hr, hc⟩
    refine ⟨?_, by simp [Rooms.lists, hr, hc]⟩
    by_contra hk
    rw [Rooms.own_eq_none_of_not_mem_keys hk] at hr
    exact absurd hr (by simp)

/-- What `disconnect` leaves of each room, and what it broadcasts, on a
registry whose keys are distinct. -/
theorem disconnect_spec (rs : Rooms) (c : String) (hnd : (rs.map Prod.fst).Nodup) :
    (disconnect rs c).rooms = (leaveEach c (roomsContaining rs c) rs).1 ∧
    (disconnect rs c).emits = (leaveEach c (roomsContaining rs c) rs).2 ∧
    (disconnect rs c).thrown = false ∧
    (∀ k, (disconnect rs c).rooms.own k = (rs.own k).bind (afterDisconnect c)) ∧
    (disconnect rs c).emits = (roomsContaining rs c).flatMap (removalEmits c rs) := by
  have hloop := disconnectLoop_eq_leaveEach c (rs.map Prod.fst)
    { rooms := rs, emits := [], ack := none, thrown := false } hnd
    (fun k hk => Rooms.own_isSome_of_mem_keys hk)
  have hspec := leaveEach_spec c (roomsContaining rs c) rs (hnd.filter _)
    (fun k hk => (List.mem_filter.1 hk).2)
  have hrooms : (disconnect rs c).rooms = (leaveEach c (roomsContaining rs c) rs).1 := by
    unfold disconnect; rw [hloop]; rfl
  have hemits : (disconnect rs c).emits = (leaveEach c (roomsContaining rs c) rs).2 := by
    unfold disconnect; rw [hloop]; simp [roomsContaining]
  refine ⟨hrooms, hemits, by unfold disconnect; rw [hloop], ?_, by rw [hemits, hspec.2]⟩
  intro k
  rw [hrooms, hspec.1 k]
  by_cases hk : k ∈ roomsContaining rs c
  · simp [hk]
  · rw [if_neg hk]
    rcases Option.eq_none_or_eq_some (rs.own k) with ho | ⟨r, ho⟩
    · simp [ho]
    · have hc : c ∉ r.players := fun hc => hk (mem_roomsContaining.2 ⟨r, ho, hc⟩)
      simp [ho, afterDisconnect, hc]

theorem afterDisconnect_eq_some {c : String} {r r' : Room} (h : afterDisconnect c r = some r') :
    c ∉ r'.players := by
  unfold afterDisconnect at h
  split at h
  · split at h
    · exact absurd h (by simp)
    · injection h with h
      subst h
      exact not_mem_playersWithout c r
  · injection h with h
    subst h
    assumption

theorem playersWithout_eq_nil {c : String} {r : Room} (h : ∀ p ∈ r.players, p = c) :
    playersWithout c r = [] := by
  simp only [playersWithout, List.filter_eq_nil_iff]
  intro p hp
  simp [h p hp]

theorem target_of_mem_removalEmits {c : String} {rs : Rooms} {k : String} {e : Emit}
    (h : e ∈ removalEmits c rs k) : e.target = k := by
  unfold removalEmits at h
  split at h
  · simp only [List.mem_cons, List.mem_singleton, List.not_mem_nil, or_false] at h
    rcases h with rfl | rfl <;> rfl
  · simp at h

/-- Claim C16: on a registry with distinct keys, the registry and the
broadcasts produced by `disconnect` of `c` are those of `leaveRoom` by `c`
applied in key order to the registered rooms whose players contain `c`;
afterwards no registered room lists `c`, a room whose only player was `c` is
deleted, and a room that did not list `c` is unchanged and is sent nothing. -/
theorem disconnect_eq_leaveRoom_each (rs : Rooms) (c : String)
    (hnd : (rs.map Prod.fst).Nodup) :
    (disconnect rs c).rooms = (leaveEach c (roomsContaining rs c) rs).1 ∧
    (disconnect rs c).emits = (leaveEach c (roomsContaining rs c) rs).2 ∧
    (∀ k r', (disconnect rs c).rooms.own k = some r' → c ∉ r'.players) ∧
    (∀ k r, rs.own k = some r → c ∈ r.players → (∀ p ∈ r.players, p = c) →
      (disconnect rs c).rooms.own k = none) ∧
    (∀ k r, rs.own k = some r → c ∉ r.players →
      (disconnect rs c).rooms.own k = some r ∧
      ∀ e ∈ (disconnect rs c).emits, e.target ≠ k) := by
  obtain ⟨hrooms, hemits, -, hown, hflat⟩ := disconnect_spec rs c hnd
  refine ⟨hrooms, hemits, ?_, ?_, ?_⟩
  · intro k r' h
    rw [hown k] at h
    rcases Option.eq_none_or_eq_some (rs.own k) with ho | ⟨r, ho⟩
    · simp [ho] at h
    · rw [ho] at h
      exact afterDisconnect_eq_some h
  · intro k r hr hc honly
    rw [hown k, hr]
    simp [afterDisconnect, hc, playersWithout_eq_nil honly]
  · intro k r hr hc
    refine ⟨by rw [hown k, hr]; simp [afterDisconnect, hc], ?_⟩
    intro e he htarget
    rw [hflat, List.mem_flatMap] at he
    obtain ⟨k', hk', hmem⟩ := he
    rw [target_of_mem_removalEmits hmem] at htarget
    subst htarget
    obtain ⟨r₀, hr₀, hc₀⟩ := mem_roomsContaining.1 hk'
    rw [hr] at hr₀
    injection hr₀ with hr₀
    subst hr₀
    exact hc hc₀

/-- Claim C16 on `threeRooms` when `P1` disconnects: room `"a"` keeps `P2`,
room `"b"` is deleted, room `"c"` is untouched. -/
theorem disconnect_eq_leaveRoom_each_witness :
    (disconnect threeRooms "P1").rooms =
      [("a", { players := ["P2"], board := List.replicate 9 none, turn := Mark.X,
               gameOver := false }),
       ("c", newRoom "P2")] ∧
    (disconnect threeRooms "P1").rooms = (leaveEach "P1" ["a", "b"] threeRooms).1 ∧
    (disconnect threeRooms "P1").emits = (leaveEach "P1" ["a", "b"] threeRooms).2 :=
  have h := disconnect_eq_leaveRoom_each threeRooms "P1" (by decide)
  ⟨by decide, h.1, h.2.1⟩

/-- When the only player of a room disconnects, the room is gone, and a later
`getRoomState` answers `"Room not found"` unless the name is an inherited one. -/
theorem disconnect_last_then_getRoomState (rs : Rooms) (c roomId : String) (room : Room)
    (hnd : (rs.map Prod.fst).Nodup) (hroom : rs.own roomId = some room)
    (hin : c ∈ room.players) (honly : ∀ p ∈ room.players, p = c)
    (hk : roomId ∉ objectPrototypeKeys) (sender : String) :
    (disconnect rs c).rooms.own roomId = none ∧
    (getRoomState (disconnect rs c).rooms sender roomId).ack =
      some (Ack.failure "Room not found") := by
  have hnone : (disconnect rs c).rooms.own roomId = none := by
    rw [(disconnect_spec rs c hnd).2.2.2.1 roomId, hroom]
    simp [afterDisconnect, hin, playersWithout_eq_nil honly]
  exact ⟨hnone, (getRoomState_cases _ sender roomId).2.2.2.1 hnone hk⟩

/-! ## Which broadcast announces a change -/

/-- Claim C17 as stated fails: the move that wins the scenario of the spec
changes the registry and emits neither a `roomUpdate` nor a `playerCount`. -/
theorem winning_move_emits_no_roomUpdate :
    (handle (run [] (winScenario.take 6)) (Event.makeMove "P1" "abc" 2)).rooms ≠
      run [] (winScenario.take 6) ∧
    ∀ e ∈ (handle (run [] (winScenario.take 6)) (Event.makeMove "P1" "abc" 2)).emits,
      (∀ k r, e ≠ Emit.roomUpdate k r) ∧ (∀ k n, e ≠ Emit.playerCount k n) := by
  refine ⟨by decide, ?_⟩
  have h : (handle (run [] (winScenario.take 6)) (Event.makeMove "P1" "abc" 2)).emits =
      [Emit.gameOver "abc" (some Mark.X)
        [some Mark.X, some Mark.X, some Mark.X, none, some Mark.O, some Mark.O,
         none, none, none] false] := by decide
  rw [h]
  intro e he
  simp only [List.mem_singleton] at he
  subst he
  exact ⟨fun _ _ => by simp, fun _ _ => by simp⟩

theorem createRoom_announced (rs : Rooms) (s roomId : String)
    (hchg : (createRoom rs s roomId).rooms ≠ rs) :
    Emit.roomUpdate roomId (newRoom s) ∈ (createRoom rs s roomId).emits ∧
    (createRoom rs s roomId).rooms.own roomId = some (newRoom s) := by
  by_cases hid : roomId = ""
  · exact absurd (by simp [createRoom, hid]) hchg
  · by_cases ht : (rs.get roomId).truthy = true
    · exact absurd (by simp [createRoom, hid, ht]) hchg
    · simp [createRoom, hid, ht, Rooms.own_assign]

theorem joinRoom_announced (rs : Rooms) (s roomId : String)
    (hchg : (joinRoom rs s roomId).rooms ≠ rs) :
    ∃ r, Emit.roomUpdate roomId r ∈ (joinRoom rs s roomId).emits ∧
      (joinRoom rs s roomId).rooms.own roomId = some r := by
  by_cases hid : roomId = ""
  · exact absurd (by simp [joinRoom, hid]) hchg
  · rcases Option.eq_none_or_eq_some (rs.own roomId) with ho | ⟨room, ho⟩
    · exfalso
      apply hchg
      rcases Rooms.get_ne_room_of_own_none ho with hg | hg <;> simp [joinRoom, hid, hg]
    · by_cases hfull : 2 ≤ room.players.length
      · exact absurd (by simp [joinRoom, hid, Rooms.get_of_own ho, hfull]) hchg
      · obtain ⟨hown, -, -, hemits, -⟩ :=
          (joinRoom_cases rs s roomId).2.2.2.2 room hid ho (by omega)
        exact ⟨_, by rw [hemits]; simp, hown⟩

theorem playersIn_of_afterDisconnect {rs' : Rooms} {c k : String} {r : Room}
    (hc : c ∈ r.players) (h : rs'.own k = afterDisconnect c r) :
    rs'.playersIn k = (playersWithout c r).length := by
  by_cases hlen : (playersWithout c r).length = 0
  · simp [Rooms.playersIn, h, afterDisconnect, hc, hlen]
  · simp [Rooms.playersIn, h, afterDisconnect, hc, hlen]

theorem leaveRoom_announced (rs : Rooms) (s roomId : String)
    (hchg : (leaveRoom rs s roomId).rooms ≠ rs) :
    Emit.playerCount roomId ((leaveRoom rs s roomId).rooms.playersIn roomId) ∈
      (leaveRoom rs s roomId).emits := by
  rcases Option.eq_none_or_eq_some (rs.own roomId) with ho | ⟨room, ho⟩
  · exact absurd (leaveRoom_of_own_none s ho).1 hchg
  · have hcount : (leaveRoom rs s roomId).rooms.playersIn roomId =
        (playersWithout s room).length := by
      by_cases hlen : (playersWithout s room).length = 0
      · simp [Rooms.playersIn, leaveRoom_of_own s ho, hlen, Rooms.own_delete]
      · simp [Rooms.playersIn, leaveRoom_of_own s ho, hlen, Rooms.own_modify, ho]
    rw [hcount, leaveRoom_of_own s ho]
    simp

/-! ## The keys of a reachable registry -/

theorem Rooms.keys_delete_sublist (rs : Rooms) (k : String) :
    ((rs.delete k).map Prod.fst).Sublist (rs.map Prod.fst) := by
  induction rs with
  | nil => exact List.Sublist.slnil
  | cons e rest ih =>
    obtain ⟨k₀, r₀⟩ := e
    by_cases h₀ : k₀ = k
    · simp only [Rooms.delete, h₀, if_true, List.map_cons]
      exact List.Sublist.cons _ ih
    · simp only [Rooms.delete, h₀, if_false, List.map_cons]
      exact List.Sublist.cons₂ _ ih

theorem Rooms.not_mem_keys_of_own_none {rs : Rooms} {k : String} (h : rs.own k = none) :
    k ∉ rs.map Prod.fst := by
  intro hk
  have := Rooms.own_isSome_of_mem_keys hk
  rw [h] at this
  exact absurd this (by simp)

theorem Rooms.keys_insertIndexed_perm (n : Nat) (k : String) (r : Room) (rs : Rooms) :
    ((Rooms.insertIndexed n k r rs).map Prod.fst).Perm (k :: rs.map Prod.fst) := by
  induction rs with
  | nil => exact List.Perm.refl _
  | cons e rest ih =>
    obtain ⟨k₀, r₀⟩ := e
    rw [Rooms.insertIndexed]
    split
    · split
      · simp only [List.map_cons]
        exact (List.Perm.cons k₀ ih).trans (List.Perm.swap k k₀ _)
      · exact List.Perm.refl _
    · exact List.Perm.refl _

theorem Rooms.keys_assign_new_perm (rs : Rooms) (k : String) (r : Room)
    (h : rs.own k = none) : ((rs.assign k r).map Prod.fst).Perm (k :: rs.map Prod.fst) := by
  unfold Rooms.assign
  rw [h]
  simp only
  split
  · exact Rooms.keys_insertIndexed_perm _ k r rs
  · simp only [List.map_append, List.map_cons, List.map_nil]
    exact List.perm_append_singleton k _

theorem createRoom_keys_nodup (rs : Rooms) (s roomId : String)
    (h : (rs.map Prod.fst).Nodup) : ((createRoom rs s roomId).rooms.map Prod.fst).Nodup := by
  by_cases hid : roomId = ""
  · simpa [createRoom, hid] using h
  · by_cases ht : (rs.get roomId).truthy = true
    · simpa [createRoom, hid, ht] using h
    · have hnone : rs.own roomId = none :=
        Rooms.own_eq_none_of_not_truthy (by simpa using ht)
      have hrooms : (createRoom rs s roomId).rooms = rs.assign roomId (newRoom s) := by
        simp [createRoom, hid, ht]
      rw [hrooms, (Rooms.keys_assign_new_perm rs roomId _ hnone).nodup_iff, List.nodup_cons]
      exact ⟨Rooms.not_mem_keys_of_own_none hnone, h⟩

theorem joinRoom_keys (rs : Rooms) (s roomId : String) :
    (joinRoom rs s roomId).rooms.map Prod.fst = rs.map Prod.fst := by
  unfold joinRoom
  split
  · rfl
  · split
    · rfl
    · rfl
    · split
      · rfl
      · exact Rooms.keys_modify _ _ _

theorem makeMove_keys (rs : Rooms) (s roomId : String) (i : Int) :
    (makeMove rs s roomId i).rooms.map Prod.fst = rs.map Prod.fst := by
  rcases Option.eq_none_or_eq_some (rs.own roomId) with ho | ⟨room, ho⟩
  · rw [(makeMove_of_own_none s i ho).1]
  · by_cases hover : room.gameOver = true
    · rw [makeMove_of_gameOver s i ho hover]
    · by_cases hcell : room.board.read i = some none
      · rw [makeMove_accepted s ho (by simpa using hover) hcell]
        cases checkWinner (room.board.write (some room.turn) i) with
        | some w => exact Rooms.keys_modify _ _ _
        | none =>
          simp only
          split
          · exact Rooms.keys_modify _ _ _
          · exact Rooms.keys_modify _ _ _
      · rw [makeMove_of_not_empty s ho hcell]

theorem leaveRoom_keys_sublist (rs : Rooms) (s roomId : String) :
    ((leaveRoom rs s roomId).rooms.map Prod.fst).Sublist (rs.map Prod.fst) := by
  rcases Option.eq_none_or_eq_some (rs.own roomId) with ho | ⟨room, ho⟩
  · rw [(leaveRoom_of_own_none s ho).1]
  · rw [leaveRoom_of_own s ho]
    simp only
    split
    · exact (Rooms.keys_delete_sublist _ _).trans (by rw [Rooms.keys_modify])
    · rw [Rooms.keys_modify]

theorem disconnectLoop_keys_sublist (s : String) (keys : List String) (acc : Outcome) :
    ((disconnectLoop s keys acc).rooms.map Prod.fst).Sublist (acc.rooms.map Prod.fst) := by
  induction keys generalizing acc with
  | nil => exact List.Sublist.refl _
  | cons roomId keys ih =>
    rw [disconnectLoop]
    split
    · rename_i r hr
      split
      · refine (ih _).trans ?_
        simp only
        split
        · exact (Rooms.keys_delete_sublist _ _).trans (by rw [Rooms.keys_modify])
        · rw [Rooms.keys_modify]
      · exact ih acc
    · exact List.Sublist.refl _

/-- Handling an event keeps the keys of the registry distinct. -/
theorem handle_keys_nodup (rs : Rooms) (e : Event) (h : (rs.map Prod.fst).Nodup) :
    ((handle rs e).rooms.map Prod.fst).Nodup := by
  cases e with
  | createRoom s roomId => exact createRoom_keys_nodup rs s roomId h
  | joinRoom s roomId => simpa [handle, joinRoom_keys] using h
  | makeMove s roomId i => simpa [handle, makeMove_keys] using h
  | leaveRoom s roomId => exact (leaveRoom_keys_sublist rs s roomId).nodup h
  | getRoomState s roomId => simpa [handle, getRoomState_rooms] using h
  | disconnect s => exact (disconnectLoop_keys_sublist s _ _).nodup h

/-- The keys of a reachable registry are distinct, as the property names of an
object are. -/
theorem reachable_keys_nodup (rs : Rooms) (hrs : Reachable rs) : (rs.map Prod.fst).Nodup :=
  Reachable.induction (P := fun rs => (rs.map Prod.fst).Nodup) List.nodup_nil
    (fun rs e _ h => handle_keys_nodup rs e h) rs hrs

theorem handle_keys_not_inherited (rs : Rooms) (e : Event)
    (h : ∀ k ∈ rs.map Prod.fst, k ∉ objectPrototypeKeys) :
    ∀ k ∈ (handle rs e).rooms.map Prod.fst, k ∉ objectPrototypeKeys := by
  cases e with
  | createRoom s roomId =>
    simp only [handle]
    by_cases hid : roomId = ""
    · simpa [createRoom, hid] using h
    · by_cases ht : (rs.get roomId).truthy = true
      · simpa [createRoom, hid, ht] using h
      · have hnone : rs.own roomId = none :=
          Rooms.own_eq_none_of_not_truthy (by simpa using ht)
        have hk : roomId ∉ objectPrototypeKeys := by
          intro hk
          rw [Rooms.get_of_own_none_inherited hnone hk] at ht
          exact ht rfl
        have hrooms : (createRoom rs s roomId).rooms = rs.assign roomId (newRoom s) := by
          simp [createRoom, hid, ht]
        intro k hmem
        rw [hrooms, (Rooms.keys_assign_new_perm rs roomId _ hnone).mem_iff] at hmem
        rcases List.mem_cons.1 hmem with rfl | hmem
        · exact hk
        · exact h k hmem
  | joinRoom s roomId => simpa [handle, joinRoom_keys] using h
  | makeMove s roomId i => simpa [handle, makeMove_keys] using h
  | leaveRoom s roomId =>
    exact fun k hk => h k ((leaveRoom_keys_sublist rs s roomId).subset hk)
  | getRoomState s roomId => simpa [handle, getRoomState_rooms] using h
  | disconnect s =>
    exact fun k hk => h k ((disconnectLoop_keys_sublist s _ _).subset hk)

/-- No room of a reachable registry bears a name inherited from
`Object.prototype`: `createRoom` never registers one. -/
theorem reachable_keys_not_inherited (rs : Rooms) (hrs : Reachable rs) :
    ∀ k ∈ rs.map Prod.fst, k ∉ objectPrototypeKeys :=
  Reachable.induction (P := fun rs => ∀ k ∈ rs.map Prod.fst, k ∉ objectPrototypeKeys)
    (by simp) (fun rs e _ h => handle_keys_not_inherited rs e h) rs hrs

/-- On a name that is not registered, `leaveRoom` stops with a `TypeError`
exactly when the name is inherited from `Object.prototype`. -/
theorem leaveRoom_thrown_of_own_none {rs : Rooms} {roomId : String} (sender : String)
    (h : rs.own roomId = none) :
    (leaveRoom rs sender roomId).thrown = true ↔ roomId ∈ objectPrototypeKeys := by
  by_cases hk : roomId ∈ objectPrototypeKeys <;> simp [leaveRoom, Rooms.get, h, hk]

/-! ## Every changed room is announced -/

theorem Rooms.modify_eq_self {rs : Rooms} {k : String} {r : Room} {f : Room → Room}
    (h : rs.own k = some r) (hf : f r = r) : Rooms.modify k f rs = rs := by
  induction rs with
  | nil => rfl
  | cons e rest ih =>
    obtain ⟨k₀, r₀⟩ := e
    by_cases h₀ : k₀ = k
    · simp only [Rooms.own, h₀, if_true, Option.some.injEq] at h
      subst h
      simp [Rooms.modify, h₀, hf]
    · simp only [Rooms.own, h₀, if_false] at h
      simp [Rooms.modify, h₀, ih h]

theorem createRoom_own_other (rs : Rooms) (s roomId : String) {k : String} (hk : k ≠ roomId) :
    (createRoom rs s roomId).rooms.own k = rs.own k := by
  by_cases hid : roomId = ""
  · simp [createRoom, hid]
  · by_cases ht : (rs.get roomId).truthy = true
    · simp [createRoom, hid, ht]
    · simp [createRoom, hid, ht, Rooms.own_assign, hk]

theorem joinRoom_own_other (rs : Rooms) (s roomId : String) {k : String} (hk : k ≠ roomId) :
    (joinRoom rs s roomId).rooms.own k = rs.own k := by
  unfold joinRoom
  split
  · rfl
  · split
    · rfl
    · rfl
    · split
      · rfl
      · exact Rooms.own_modify_other _ hk

theorem createRoom_own_none_of_changed (rs : Rooms) (s roomId : String)
    (hchg : (createRoom rs s roomId).rooms ≠ rs) : rs.own roomId = none := by
  by_cases hid : roomId = ""
  · exact absurd (by simp [createRoom, hid]) hchg
  · by_cases ht : (rs.get roomId).truthy = true
    · exact absurd (by simp [createRoom, hid, ht]) hchg
    · exact Rooms.own_eq_none_of_not_truthy (by simpa using ht)

theorem joinRoom_own_of_changed (rs : Rooms) (s roomId : String)
    (hchg : (joinRoom rs s roomId).rooms ≠ rs) :
    ∃ room, rs.own roomId = some room ∧
      (joinRoom rs s roomId).rooms.own roomId =
        some { room with players := room.players ++ [s] } := by
  by_cases hid : roomId = ""
  · exact absurd (by simp [joinRoom, hid]) hchg
  · rcases Option.eq_none_or_eq_some (rs.own roomId) with ho | ⟨room, ho⟩
    · exfalso
      apply hchg
      rcases Rooms.get_ne_room_of_own_none ho with hg | hg <;> simp [joinRoom, hid, hg]
    · by_cases hfull : 2 ≤ room.players.length
      · exact absurd (by simp [joinRoom, hid, Rooms.get_of_own ho, hfull]) hchg
      · exact ⟨room, ho, ((joinRoom_cases rs s roomId).2.2.2.2 room hid ho (by omega)).1⟩

/-- What an accepted move leaves and broadcasts: the continuing move sends the
updated room, the winning or drawing move sends only the `gameOver` event, with
the winner `checkWinner` finds on the stored board and `draw` exactly when it
finds none. -/
theorem makeMove_announced (rs : Rooms) (s roomId : String) (i : Int)
    (hchg : (makeMove rs s roomId i).rooms ≠ rs) :
    ∃ room r, rs.own roomId = some room ∧ room.board.read i = some none ∧
      (makeMove rs s roomId i).rooms.own roomId = some r ∧
      r.board = room.board.write (some room.turn) i ∧
      ((Emit.roomUpdate roomId r ∈ (makeMove rs s roomId i).emits) ∨
       (r.gameOver = true ∧
        (makeMove rs s roomId i).emits =
          [Emit.gameOver roomId (checkWinner r.board) r.board
            (decide (checkWinner r.board = none))])) := by
  rcases Option.eq_none_or_eq_some (rs.own roomId) with ho | ⟨room, ho⟩
  · exact absurd (makeMove_of_own_none s i ho).1 hchg
  · by_cases hover : room.gameOver = true
    · exact absurd (by rw [makeMove_of_gameOver s i ho hover]) hchg
    · by_cases hcell : room.board.read i = some none
      · have hopen : room.gameOver = false := by simpa using hover
        rw [makeMove_accepted s ho hopen hcell]
        cases hw : checkWinner (room.board.write (some room.turn) i) with
        | some w =>
          exact ⟨room, _, ho, hcell, Rooms.own_modify_const_self _ ho, rfl,
            Or.inr ⟨rfl, by simp [hw]⟩⟩
        | none =>
          simp only
          split
          · exact ⟨room, _, ho, hcell, Rooms.own_modify_const_self _ ho, rfl,
              Or.inr ⟨rfl, by simp [hw]⟩⟩
          · exact ⟨room, _, ho, hcell, Rooms.own_modify_const_self _ ho, rfl,
              Or.inl (by simp)⟩
      · exact absurd (by rw [makeMove_of_not_empty s ho hcell]) hchg

theorem leaveRoom_own_ne_of_changed (rs : Rooms) (s roomId : String)
    (hchg : (leaveRoom rs s roomId).rooms ≠ rs) :
    (leaveRoom rs s roomId).rooms.own roomId ≠ rs.own roomId := by
  rcases Option.eq_none_or_eq_some (rs.own roomId) with ho | ⟨room, ho⟩
  · exact absurd (leaveRoom_of_own_none s ho).1 hchg
  · intro heq
    apply hchg
    rw [leaveRoom_of_own s ho] at heq ⊢
    simp only at heq ⊢
    split at heq
    · rw [Rooms.own_delete, if_pos rfl, ho] at heq
      exact absurd heq (by simp)
    · rename_i hlen
      rw [if_neg hlen]
      rw [Rooms.own_modify, if_pos rfl, ho] at heq
      simp only [Option.map_some', Option.some.injEq] at heq
      exact Rooms.modify_eq_self ho heq

theorem afterDisconnect_ne_self {c : String} {r : Room} (hc : c ∈ r.players) :
    afterDisconnect c r ≠ some r := by
  intro h
  exact afterDisconnect_eq_some h hc

/-- Claim C17, amended: when an event changes the registry (its keys being
distinct), some room's registered state changes, and every room whose
registered state changes is sent a `roomUpdate` carrying its updated room or a
`playerCount` carrying its updated number of players, except after an accepted
winning or drawing move, whose only broadcast goes to that room and is the
`gameOver` event with the stored board, the winner `checkWinner` finds on it,
and `draw` exactly when there is none. -/
theorem changed_registry_is_announced (rs : Rooms) (hnd : (rs.map Prod.fst).Nodup)
    (e : Event) (hchg : (handle rs e).rooms ≠ rs) :
    (∃ k, (handle rs e).rooms.own k ≠ rs.own k) ∧
    ∀ k, (handle rs e).rooms.own k ≠ rs.own k →
      (∃ r, Emit.roomUpdate k r ∈ (handle rs e).emits ∧
        (handle rs e).rooms.own k = some r) ∨
      Emit.playerCount k ((handle rs e).rooms.playersIn k) ∈ (handle rs e).emits ∨
      (∃ s i r, e = Event.makeMove s k i ∧ (handle rs e).rooms.own k = some r ∧
        r.gameOver = true ∧
        (handle rs e).emits =
          [Emit.gameOver k (checkWinner r.board) r.board
            (decide (checkWinner r.board = none))]) := by
  cases e with
  | createRoom s roomId =>
    have hnone := createRoom_own_none_of_changed rs s roomId hchg
    have hann := createRoom_announced rs s roomId hchg
    refine ⟨⟨roomId, ?_⟩, fun k hk => ?_⟩
    · simp only [handle]
      rw [hann.2, hnone]
      simp
    · have hkr : k = roomId := by
        by_contra hne
        exact hk (createRoom_own_other rs s roomId hne)
      subst hkr
      exact Or.inl ⟨_, hann⟩
  | joinRoom s roomId =>
    obtain ⟨room, hroom, hown⟩ := joinRoom_own_of_changed rs s roomId hchg
    refine ⟨⟨roomId, ?_⟩, fun k hk => ?_⟩
    · simp only [handle]
      rw [hown, hroom]
      intro h
      injection h with h
      have := congrArg (fun r : Room => r.players.length) h
      simp at this
    · have hkr : k = roomId := by
        by_contra hne
        exact hk (joinRoom_own_other rs s roomId hne)
      subst hkr
      obtain ⟨r, h⟩ := joinRoom_announced rs s k hchg
      exact Or.inl ⟨r, h⟩
  | makeMove s roomId i =>
    obtain ⟨room, r, hroom, hcell, hown, hb, hann⟩ := makeMove_announced rs s roomId i hchg
    refine ⟨⟨roomId, ?_⟩, fun k hk => ?_⟩
    · simp only [handle]
      rw [hown, hroom]
      intro h
      injection h with h
      have h1 := Board.read_write_self (some room.turn) hcell
      rw [← hb, h, hcell] at h1
      simp at h1
    · have hkr : k = roomId := by
        by_contra hne
        exact hk (makeMove_own_other rs s roomId i hne)
      subst hkr
      rcases hann with hann | ⟨hover, hemits⟩
      · exact Or.inl ⟨r, hann, hown⟩
      · exact Or.inr (Or.inr ⟨s, i, r, rfl, hown, hover, hemits⟩)
  | leaveRoom s roomId =>
    refine ⟨⟨roomId, leaveRoom_own_ne_of_changed rs s roomId hchg⟩, fun k hk => ?_⟩
    have hkr : k = roomId := by
      by_contra hne
      exact hk (leaveRoom_own_other rs s roomId hne)
    subst hkr
    exact Or.inr (Or.inl (leaveRoom_announced rs s k hchg))
  | getRoomState s roomId =>
    exact absurd (getRoomState_rooms rs s roomId) hchg
  | disconnect s =>
    obtain ⟨hrooms, -, -, hown, hflat⟩ := disconnect_spec rs s hnd
    have hlisted : ∀ k r, rs.own k = some r → s ∈ r.players →
        Emit.playerCount k ((disconnect rs s).rooms.playersIn k) ∈ (disconnect rs s).emits := by
      intro k r hr hc
      rw [playersIn_of_afterDisconnect hc (by rw [hown k, hr]; rfl), hflat, List.mem_flatMap]
      exact ⟨k, mem_roomsContaining.2 ⟨r, hr, hc⟩, by simp [removalEmits, hr]⟩
    refine ⟨?_, fun k hk => ?_⟩
    · cases hl : roomsContaining rs s with
      | nil =>
        rw [hl] at hrooms
        exact absurd hrooms hchg
      | cons k ks =>
        obtain ⟨r, hr, hc⟩ :=
          mem_roomsContaining.1 (by rw [hl]; simp : k ∈ roomsContaining rs s)
        refine ⟨k, ?_⟩
        simp only [handle]
        rw [hown k, hr]
        exact afterDisconnect_ne_self hc
    · simp only [handle] at hk ⊢
      rcases Option.eq_none_or_eq_some (rs.own k) with ho | ⟨r, ho⟩
      · rw [hown k, ho] at hk
        exact absurd rfl hk
      · by_cases hc : s ∈ r.players
        · exact Or.inr (Or.inl (hlisted k r ho hc))
        · rw [hown k, ho] at hk
          exact absurd (by simp [afterDisconnect, hc]) hk

/-- Claim C17, amended, on `threeRooms` when `P1` disconnects: room `"b"`,
which is deleted, is sent its player count all the same. -/
theorem changed_registry_is_announced_witness :
    (∃ r, Emit.roomUpdate "b" r ∈ (handle threeRooms (Event.disconnect "P1")).emits ∧
      (handle threeRooms (Event.disconnect "P1")).rooms.own "b" = some r) ∨
    Emit.playerCount "b" ((handle threeRooms (Event.disconnect "P1")).rooms.playersIn "b") ∈
      (handle threeRooms (Event.disconnect "P1")).emits ∨
    (∃ s i r, Event.disconnect "P1" = Event.makeMove s "b" i ∧
      (handle threeRooms (Event.disconnect "P1")).rooms.own "b" = some r ∧
      r.gameOver = true ∧
      (handle threeRooms (Event.disconnect "P1")).emits =
        [Emit.gameOver "b" (checkWinner r.board) r.board
          (decide (checkWinner r.board = none))]) :=
  (changed_registry_is_announced threeRooms (by decide) (Event.disconnect "P1")
    (by decide)).2 "b" (by decide)

end Server
